import Mathlib

/-!
ZXCSpectrum: peripheral (ULA) emulation of `main.c`.

A shallow embedding of the memory bridge, the keyboard matrix, the I/O port,
the video decoder, the ROM loader and the frame loop of `src/main.c`, followed
by the properties proved about them.

Conventions of the embedding.

* The process-wide statics of `main.c` (`memory`, `border_color`,
  `key_matrix`, `flash_counter`, `flash_state`) are the fields of `Machine`;
  every C function that touches them takes and returns a `Machine`.
* C arrays are total functions `Nat → Nat` from index to element; a store is
  `Function.update`.
* `uint8_t` / `uint16_t` values are naturals, reduced `% 256` / `% 65536`
  wherever the C code converts to the narrow type.  The `int` complement
  `~e` is taken on the 32-bit two's-complement pattern (`bitNot32`).
* `for (int i = 0; i < n; i++) body` is `forLoop n body`; a `while` loop whose
  termination depends on the CPU core is `whileLoop` with fuel.
* The Z80 core of `z80.h` is a parameter: `Z80Core` for the Executing phase
  alone, `Z80Chip` (calls as sequences of callbacks, `BusProg`) for the frame
  loop on the whole machine.
-/

namespace ZXCSpectrum

/-! ## Constants (main.c, lines 11-14) -/

/-- The constant `ROM_SIZE`: 16 KB of ROM. -/
def ROM_SIZE : Nat := 0x4000

/-- The constant `SCREEN_W`. -/
def SCREEN_W : Nat := 256

/-- The constant `SCREEN_H`. -/
def SCREEN_H : Nat := 192

/-- The constant `CYCLES_PER_FRAME`, written `(3500000/50)` in the source. -/
def CYCLES_PER_FRAME : Nat := 3500000 / 50

/-! ## Machine state (main.c, lines 17-26) -/

/-- The static variables of `main.c`. -/
structure Machine where
  /-- The array `static uint8_t memory[65536]`. -/
  memory : Nat → Nat
  /-- The variable `static uint8_t border_color`. -/
  border_color : Nat
  /-- The array `static uint8_t key_matrix[8]`. -/
  key_matrix : Nat → Nat
  /-- The variable `static int flash_counter`. -/
  flash_counter : Nat
  /-- The variable `static bool flash_state`. -/
  flash_state : Bool

/-- The state of the statics at program start: C zero-initialises them. -/
def Machine.start : Machine :=
  { memory := fun _ => 0, border_color := 0, key_matrix := fun _ => 0,
    flash_counter := 0, flash_state := false }

/-- Every stored element is a byte, as the C element types guarantee. -/
def Machine.WellFormed (s : Machine) : Prop :=
  (∀ a, s.memory a < 256) ∧ s.border_color < 256 ∧ (∀ r, s.key_matrix r < 256)

/-! ## Control and integer helpers -/

/-- The loop `for (int i = 0; i < n; i++) s = body i s`. -/
def forLoop {σ : Type} (n : Nat) (body : Nat → σ → σ) (s : σ) : σ :=
  match n with
  | 0 => s
  | k + 1 => body k (forLoop k body s)

/-- The C expression `~e` on a non-negative `int` value `e`, as the 32-bit
two's-complement bit pattern of the result. -/
def bitNot32 (e : Nat) : Nat := 0xFFFFFFFF ^^^ e

/-! ## Keyboard matrix (main.c, lines 29-97) -/

/-- The function `init_keyboard`: every row is set to `0x1F`. -/
def init_keyboard (s : Machine) : Machine :=
  forLoop 8 (fun i t => { t with key_matrix := Function.update t.key_matrix i 0x1F }) s

/-- The function `update_key`: `key_matrix[row] &= ~(1 << bit)` when pressed,
`key_matrix[row] |= (1 << bit)` when released; the result is stored as a byte. -/
def update_key (s : Machine) (row bit : Nat) (pressed : Bool) : Machine :=
  if pressed then
    { s with key_matrix :=
        Function.update s.key_matrix row ((s.key_matrix row &&& bitNot32 (1 <<< bit)) % 256) }
  else
    { s with key_matrix :=
        Function.update s.key_matrix row ((s.key_matrix row ||| (1 <<< bit)) % 256) }

/-- The host scancodes that `handle_sdl_key` names (constants of the SDL
header), and `OTHER` for each of the remaining values of the enumeration. -/
inductive SDL_Scancode where
  | SDL_SCANCODE_RSHIFT | SDL_SCANCODE_LCTRL | SDL_SCANCODE_RCTRL
  | SDL_SCANCODE_SPACE | SDL_SCANCODE_M | SDL_SCANCODE_N | SDL_SCANCODE_B
  | SDL_SCANCODE_RETURN | SDL_SCANCODE_L | SDL_SCANCODE_K | SDL_SCANCODE_J | SDL_SCANCODE_H
  | SDL_SCANCODE_P | SDL_SCANCODE_O | SDL_SCANCODE_I | SDL_SCANCODE_U | SDL_SCANCODE_Y
  | SDL_SCANCODE_0 | SDL_SCANCODE_9 | SDL_SCANCODE_8 | SDL_SCANCODE_7 | SDL_SCANCODE_6
  | SDL_SCANCODE_1 | SDL_SCANCODE_2 | SDL_SCANCODE_3 | SDL_SCANCODE_4 | SDL_SCANCODE_5
  | SDL_SCANCODE_Q | SDL_SCANCODE_W | SDL_SCANCODE_E | SDL_SCANCODE_R | SDL_SCANCODE_T
  | SDL_SCANCODE_A | SDL_SCANCODE_S | SDL_SCANCODE_D | SDL_SCANCODE_F | SDL_SCANCODE_G
  | SDL_SCANCODE_LSHIFT | SDL_SCANCODE_Z | SDL_SCANCODE_X | SDL_SCANCODE_C | SDL_SCANCODE_V
  | OTHER (code : Nat)
  deriving DecidableEq, Repr

/-- The function `handle_sdl_key`: the `switch` over the scancode. -/
def handle_sdl_key (s : Machine) (sc : SDL_Scancode) (pressed : Bool) : Machine :=
  match sc with
  | .SDL_SCANCODE_RSHIFT => update_key s 7 1 pressed
  | .SDL_SCANCODE_LCTRL => update_key s 7 1 pressed
  | .SDL_SCANCODE_RCTRL => update_key s 7 1 pressed
  | .SDL_SCANCODE_SPACE => update_key s 7 0 pressed
  | .SDL_SCANCODE_M => update_key s 7 2 pressed
  | .SDL_SCANCODE_N => update_key s 7 3 pressed
  | .SDL_SCANCODE_B => update_key s 7 4 pressed
  | .SDL_SCANCODE_RETURN => update_key s 6 0 pressed
  | .SDL_SCANCODE_L => update_key s 6 1 pressed
  | .SDL_SCANCODE_K => update_key s 6 2 pressed
  | .SDL_SCANCODE_J => update_key s 6 3 pressed
  | .SDL_SCANCODE_H => update_key s 6 4 pressed
  | .SDL_SCANCODE_P => update_key s 5 0 pressed
  | .SDL_SCANCODE_O => update_key s 5 1 pressed
  | .SDL_SCANCODE_I => update_key s 5 2 pressed
  | .SDL_SCANCODE_U => update_key s 5 3 pressed
  | .SDL_SCANCODE_Y => update_key s 5 4 pressed
  | .SDL_SCANCODE_0 => update_key s 4 0 pressed
  | .SDL_SCANCODE_9 => update_key s 4 1 pressed
  | .SDL_SCANCODE_8 => update_key s 4 2 pressed
  | .SDL_SCANCODE_7 => update_key s 4 3 pressed
  | .SDL_SCANCODE_6 => update_key s 4 4 pressed
  | .SDL_SCANCODE_1 => update_key s 3 0 pressed
  | .SDL_SCANCODE_2 => update_key s 3 1 pressed
  | .SDL_SCANCODE_3 => update_key s 3 2 pressed
  | .SDL_SCANCODE_4 => update_key s 3 3 pressed
  | .SDL_SCANCODE_5 => update_key s 3 4 pressed
  | .SDL_SCANCODE_Q => update_key s 2 0 pressed
  | .SDL_SCANCODE_W => update_key s 2 1 pressed
  | .SDL_SCANCODE_E => update_key s 2 2 pressed
  | .SDL_SCANCODE_R => update_key s 2 3 pressed
  | .SDL_SCANCODE_T => update_key s 2 4 pressed
  | .SDL_SCANCODE_A => update_key s 1 0 pressed
  | .SDL_SCANCODE_S => update_key s 1 1 pressed
  | .SDL_SCANCODE_D => update_key s 1 2 pressed
  | .SDL_SCANCODE_F => update_key s 1 3 pressed
  | .SDL_SCANCODE_G => update_key s 1 4 pressed
  | .SDL_SCANCODE_LSHIFT => update_key s 0 0 pressed
  | .SDL_SCANCODE_Z => update_key s 0 1 pressed
  | .SDL_SCANCODE_X => update_key s 0 2 pressed
  | .SDL_SCANCODE_C => update_key s 0 3 pressed
  | .SDL_SCANCODE_V => update_key s 0 4 pressed
  | .OTHER _ => s

/-- The (row, bit) argument pair of the `update_key` call in each `case` of
`handle_sdl_key`; `none` for the `default` branch. -/
def keyCoord (sc : SDL_Scancode) : Option (Nat × Nat) :=
  match sc with
  | .SDL_SCANCODE_RSHIFT => some (7, 1)
  | .SDL_SCANCODE_LCTRL => some (7, 1)
  | .SDL_SCANCODE_RCTRL => some (7, 1)
  | .SDL_SCANCODE_SPACE => some (7, 0)
  | .SDL_SCANCODE_M => some (7, 2)
  | .SDL_SCANCODE_N => some (7, 3)
  | .SDL_SCANCODE_B => some (7, 4)
  | .SDL_SCANCODE_RETURN => some (6, 0)
  | .SDL_SCANCODE_L => some (6, 1)
  | .SDL_SCANCODE_K => some (6, 2)
  | .SDL_SCANCODE_J => some (6, 3)
  | .SDL_SCANCODE_H => some (6, 4)
  | .SDL_SCANCODE_P => some (5, 0)
  | .SDL_SCANCODE_O => some (5, 1)
  | .SDL_SCANCODE_I => some (5, 2)
  | .SDL_SCANCODE_U => some (5, 3)
  | .SDL_SCANCODE_Y => some (5, 4)
  | .SDL_SCANCODE_0 => some (4, 0)
  | .SDL_SCANCODE_9 => some (4, 1)
  | .SDL_SCANCODE_8 => some (4, 2)
  | .SDL_SCANCODE_7 => some (4, 3)
  | .SDL_SCANCODE_6 => some (4, 4)
  | .SDL_SCANCODE_1 => some (3, 0)
  | .SDL_SCANCODE_2 => some (3, 1)
  | .SDL_SCANCODE_3 => some (3, 2)
  | .SDL_SCANCODE_4 => some (3, 3)
  | .SDL_SCANCODE_5 => some (3, 4)
  | .SDL_SCANCODE_Q => some (2, 0)
  | .SDL_SCANCODE_W => some (2, 1)
  | .SDL_SCANCODE_E => some (2, 2)
  | .SDL_SCANCODE_R => some (2, 3)
  | .SDL_SCANCODE_T => some (2, 4)
  | .SDL_SCANCODE_A => some (1, 0)
  | .SDL_SCANCODE_S => some (1, 1)
  | .SDL_SCANCODE_D => some (1, 2)
  | .SDL_SCANCODE_F => some (1, 3)
  | .SDL_SCANCODE_G => some (1, 4)
  | .SDL_SCANCODE_LSHIFT => some (0, 0)
  | .SDL_SCANCODE_Z => some (0, 1)
  | .SDL_SCANCODE_X => some (0, 2)
  | .SDL_SCANCODE_C => some (0, 3)
  | .SDL_SCANCODE_V => some (0, 4)
  | .OTHER _ => none

/-! ## Address-space bridge (main.c, lines 100-103) -/

/-- The function `read_byte`: `memory[addr]` for the `uint16_t` address. -/
def read_byte (s : Machine) (addr : Nat) : Nat :=
  s.memory (addr % 65536)

/-- The function `write_byte`: the store happens only when `addr >= ROM_SIZE`. -/
def write_byte (s : Machine) (addr val : Nat) : Machine :=
  if addr % 65536 ≥ ROM_SIZE then
    { s with memory := Function.update s.memory (addr % 65536) (val % 256) }
  else s

/-! ## Port I/O bridge (main.c, lines 106-118) -/

/-- The body of the loop of `port_in` (line 111), for the keyboard matrix
`km` and the row-select mask `sel`: `if (sel & (1 << row)) res &= km[row];`. -/
def portInBody (km : Nat → Nat) (sel : Nat) (row res : Nat) : Nat :=
  if sel &&& (1 <<< row) ≠ 0 then (res &&& km row) % 256 else res

/-- The function `port_in`; `b` is the field `cpu->b` (the high row-select
byte of the CPU), the only part of the CPU the function reads. -/
def port_in (s : Machine) (b port_lo : Nat) : Nat :=
  if (port_lo % 256) &&& 1 ≠ 0 then 0xFF
  else
    let sel := bitNot32 (b % 256) % 256
    let res := forLoop 8 (portInBody s.key_matrix sel) 0xFF
    (res ||| 0xE0) % 256

/-- The read result as the specification words it: `0xE0` OR the bitwise AND,
starting from `0xFF`, of `key_matrix[i]` over exactly the rows `i` in `[0,8)`
whose bit `i` of `B` is 0. -/
def specPortIn (km : Nat → Nat) (B : Nat) : Nat :=
  0xE0 ||| ((List.range 8).filter (fun i => !B.testBit i)).foldl (fun acc i => acc &&& km i) 0xFF

/-- The function `port_out`; the CPU argument is not used by the source. -/
def port_out (s : Machine) (port_lo val : Nat) : Machine :=
  if (port_lo % 256) &&& 1 = 0 then
    { s with border_color := (((val % 256) >>> 1) &&& 0x07) % 256 }
  else s

/-! ## Video decoder (main.c, lines 155-201) -/

/-- The table `palette[16]` of ARGB8888 colours. -/
def palette : List Nat :=
  [0xFF000000, 0xFF0000D7, 0xFFD70000, 0xFFD700D7,
   0xFF00D700, 0xFF00D7D7, 0xFFD7D700, 0xFFD7D7D7,
   0xFF000000, 0xFF0000FF, 0xFFFF0000, 0xFFFF00FF,
   0xFF00FF00, 0xFF00FFFF, 0xFFFFFF00, 0xFFFFFFFF]

/-- The row offset `y0 = (y&0xC0)<<5 | (y&0x07)<<8 | (y&0x38)<<2` (line 189). -/
def y0 (y : Nat) : Nat :=
  (((y &&& 0xC0) <<< 5) ||| ((y &&& 0x07) <<< 8)) ||| ((y &&& 0x38) <<< 2)

/-- The index `0x4000+y0+(x>>3)` of the bitmap byte read at line 191. -/
def bitmapAddr (y x : Nat) : Nat := 0x4000 + y0 y + (x >>> 3)

/-- The index `0x5800+(y/8)*32+(x/8)` of the attribute byte read at line 192. -/
def attrAddr (y x : Nat) : Nat := 0x5800 + (y / 8) * 32 + x / 8

/-- The value `col` of lines 191-198: the palette index of pixel `(x, y)`. -/
def pixel_col (s : Machine) (y x : Nat) : Nat :=
  let bit := (s.memory (bitmapAddr y x) &&& (0x80 >>> (x &&& 7))) % 256
  let A := s.memory (attrAddr y x)
  let br := (A &&& 0x40) != 0
  let fl := (A &&& 0x80) != 0
  let ink := A &&& 0x07
  let pap := (A >>> 3) &&& 0x07
  let swapped := if fl && s.flash_state then (pap, ink) else (ink, pap)
  ((if bit ≠ 0 then swapped.1 else swapped.2) + (if br then 8 else 0)) % 256

/-- The bitmap address as the specification writes it,
`0x4000 + ((y & 0xC0) << 5) | ((y & 0x07) << 8) | ((y & 0x38) << 2) + (x >> 3)`,
read with C operator precedence (`+` binds tighter than `|`). -/
def specBitmapAddr (y x : Nat) : Nat :=
  ((0x4000 + ((y &&& 0xC0) <<< 5)) ||| ((y &&& 0x07) <<< 8)) ||| (((y &&& 0x38) <<< 2) + (x >>> 3))

/-- The specification's bitmap address with every `|` read as `+`. -/
def specBitmapAddrSum (y x : Nat) : Nat :=
  0x4000 + ((y &&& 0xC0) <<< 5) + ((y &&& 0x07) <<< 8) + ((y &&& 0x38) <<< 2) + (x >>> 3)

/-- The palette index as the specification words it, for the attribute byte
`A`, the selected bitmap bit and the shared flash state: ink = `A & 7`,
paper = `(A >> 3) & 7`, bright = bit 6, flash = bit 7, ink and paper swapped
exactly when flash is set and the flash state is true, and
index = `(bit ? ink : paper) + (bright ? 8 : 0)`. -/
def specColourIndex (A : Nat) (bit flashState : Bool) : Nat :=
  let ink := A &&& 7
  let paper := (A >>> 3) &&& 7
  let bright := A.testBit 6
  let flash := A.testBit 7
  let swap := flash && flashState
  (if bit then (if swap then paper else ink) else (if swap then ink else paper)) +
    (if bright then 8 else 0)

/-- An attribute byte with its ink field (bits 0-2) and paper field (bits 3-5)
exchanged; the bright and flash bits (6 and 7) are kept. -/
def swapInkPaper (A : Nat) : Nat :=
  ((A &&& 0xC0) ||| ((A &&& 7) <<< 3)) ||| ((A >>> 3) &&& 7)

/-- The body of the inner loop (lines 191-199): `framebuf[y*SCREEN_W + x] = palette[col]`.
A lookup outside the table would read the default 0. -/
def draw_pixel (s : Machine) (y x : Nat) (framebuf : Nat → Nat) : Nat → Nat :=
  Function.update framebuf (y * SCREEN_W + x) (palette.getD (pixel_col s y x) 0)

/-- The border fill of lines 184-185. -/
def draw_border (s : Machine) (framebuf : Nat → Nat) : Nat → Nat :=
  let bc := palette.getD s.border_color 0
  forLoop (SCREEN_W * SCREEN_H) (fun i fb => Function.update fb i bc) framebuf

/-- The bitmap and attribute loops of lines 188-201. -/
def draw_screen (s : Machine) (framebuf : Nat → Nat) : Nat → Nat :=
  forLoop SCREEN_H (fun y fb => forLoop SCREEN_W (fun x fb1 => draw_pixel s y x fb1) fb) framebuf

/-- The video decoding step of one frame (lines 183-201): border fill, then
the bitmap and attribute loops, on the frame buffer `framebuf`. -/
def decode_frame (s : Machine) (framebuf : Nat → Nat) : Nat → Nat :=
  draw_screen s (draw_border s framebuf)

/-! ## CPU emulation of one frame (main.c, lines 178-181) -/

/-- The operations of the Z80 core (header `z80.h`, outside `main.c`) that the
frame loop uses, over the state `σ` they act on: the `z80` structure together
with whatever its callbacks reach. -/
structure Z80Core (σ : Type) where
  /-- The field `cpu.cyc`, an `unsigned long` cycle counter. -/
  cyc : σ → Nat
  /-- The call `z80_step(&cpu)`: executes one instruction. -/
  z80_step : σ → σ
  /-- The call `z80_gen_int(&cpu, data)`: requests an interrupt. -/
  z80_gen_int : σ → Nat → σ

/-- A call made to the core; the frame loop logs its calls in order. -/
inductive CpuCall where
  | step
  | gen_int (data : Nat)
  deriving DecidableEq, Repr

/-- The loop `while (cond s) s = body s`, run for at most `fuel` tests of the
condition; `none` when the fuel runs out before the condition fails. -/
def whileLoop {σ : Type} (fuel : Nat) (cond : σ → Bool) (body : σ → σ) (s : σ) : Option σ :=
  match fuel with
  | 0 => none
  | k + 1 => if cond s then whileLoop k cond body (body s) else some s

/-- The expression `cpu.cyc - start` in `unsigned long` arithmetic of `w` bits. -/
def consumed {σ : Type} (core : Z80Core σ) (w start : Nat) (cpu : σ) : Nat :=
  (core.cyc cpu + 2 ^ w - start) % 2 ^ w

/-- The Executing phase of one frame (lines 179-181):
`start = cpu.cyc; while (cpu.cyc - start < CYCLES_PER_FRAME) z80_step(&cpu); z80_gen_int(&cpu, 0);`
on a CPU state paired with the log of the calls made so far. -/
def executing {σ : Type} (core : Z80Core σ) (w fuel : Nat) (st : σ × List CpuCall) :
    Option (σ × List CpuCall) :=
  let start := core.cyc st.1
  match whileLoop fuel (fun t => decide (consumed core w start t.1 < CYCLES_PER_FRAME))
      (fun t => (core.z80_step t.1, t.2 ++ [CpuCall.step])) st with
  | none => none
  | some t => some (core.z80_gen_int t.1 0, t.2 ++ [CpuCall.gen_int 0])

/-- A sample core for evaluation: the state is the cycle count itself, every
instruction takes 4 cycles, and the counter wraps at `2 ^ 64`. -/
def sampleCore : Z80Core Nat :=
  { cyc := fun c => c % 2 ^ 64, z80_step := fun c => c + 4, z80_gen_int := fun c _ => c }

/-- The screen row whose row offset `y0` is `o`: the three bit fields of `y0`
moved back to their places in `y`. -/
def y0_inv (o : Nat) : Nat :=
  (((o >>> 5) &&& 0xC0) ||| ((o >>> 8) &&& 0x07)) ||| ((o >>> 2) &&& 0x38)

/-! ## Attribute fields (main.c, lines 193-196) -/

/-- The expression `(A & 0x40) != 0` of line 193: the bright flag `br`. -/
def attr_br (A : Nat) : Bool := (A &&& 0x40) != 0

/-- The expression `(A & 0x80) != 0` of line 194: the flash flag `fl`. -/
def attr_fl (A : Nat) : Bool := (A &&& 0x80) != 0

/-- The expression `A & 0x07` of line 195: the ink index. -/
def attr_ink (A : Nat) : Nat := A &&& 0x07

/-- The expression `(A>>3) & 0x07` of line 196: the paper index. -/
def attr_pap (A : Nat) : Nat := (A >>> 3) &&& 0x07

/-! ## ROM loading (main.c, lines 121-127) -/

/-- The call `fread(buf, 1, count, f)` on a freshly opened file holding
`bytes`: the first `min count bytes.length` bytes are copied to the start of
the buffer and their number is returned (read errors are not modelled). -/
def fread (buf : Nat → Nat) (count : Nat) (bytes : List (Fin 256)) : (Nat → Nat) × Nat :=
  let n := min count bytes.length
  (fun a => if a < n then ((bytes.getD a 0 : Fin 256) : Nat) else buf a, n)

/-- The call `memset(buf + start, val, len)`. -/
def memset (buf : Nat → Nat) (start val len : Nat) : Nat → Nat :=
  fun a => if start ≤ a ∧ a < start + len then val % 256 else buf a

/-- The function `load_rom`.  The file at `path` is `none` when `fopen` fails
(the file is missing) and `some bytes` when it opens with contents `bytes`.
The result is `Except.error 1` for `exit(1)` and `Except.ok` with the machine
after the load otherwise. -/
def load_rom (file : Option (List (Fin 256))) (s : Machine) : Except Nat Machine :=
  match file with
  | none => Except.error 1
  | some bytes =>
    let r := fread s.memory ROM_SIZE bytes
    if r.2 ≠ ROM_SIZE then Except.error 1
    else Except.ok { s with memory := memset r.1 ROM_SIZE 0 (65536 - ROM_SIZE) }

/-- A ROM file of exactly `ROM_SIZE` bytes, all `0xF3`. -/
def sampleRom : List (Fin 256) := List.replicate 0x4000 0xF3

/-! ## The frame loop (main.c, lines 163-211) -/

/-- One call of the Z80 core as the sequence of callbacks it makes: the core
is a separate translation unit, so it reaches the statics of `main.c` only
through the four callbacks installed at lines 136-139 (`read_byte`,
`write_byte`, `port_in` with its own `b` register, `port_out`) and ends with a
new value `z` of the `z80` structure. -/
inductive BusProg (Z : Type) where
  | done (z : Z)
  | read_byte (addr : Nat) (k : Nat → BusProg Z)
  | write_byte (addr val : Nat) (k : BusProg Z)
  | port_in (b port_lo : Nat) (k : Nat → BusProg Z)
  | port_out (port_lo val : Nat) (k : BusProg Z)

/-- Runs the callbacks of a core call against the machine. -/
def BusProg.run {Z : Type} : BusProg Z → Machine → Machine × Z
  | BusProg.done z, m => (m, z)
  | BusProg.read_byte addr k, m => (k (ZXCSpectrum.read_byte m addr)).run m
  | BusProg.write_byte addr val k, m => k.run (ZXCSpectrum.write_byte m addr val)
  | BusProg.port_in b port_lo k, m => (k (ZXCSpectrum.port_in m b port_lo)).run m
  | BusProg.port_out port_lo val k, m => k.run (ZXCSpectrum.port_out m port_lo val)

/-- A Z80 core (header `z80.h`) over its `z80` structure `Z`. -/
structure Z80Chip (Z : Type) where
  /-- The field `cyc` of the structure. -/
  cyc : Z → Nat
  /-- The call `z80_step`, as the callbacks it makes. -/
  step : Z → BusProg Z
  /-- The call `z80_gen_int`, as the callbacks it makes. -/
  gen_int : Z → Nat → BusProg Z

/-- The core operations of a chip on the machine together with the `z80`
structure, with the callbacks of `main.c` installed. -/
def Z80Chip.core {Z : Type} (chip : Z80Chip Z) : Z80Core (Machine × Z) :=
  { cyc := fun st => chip.cyc st.2
    z80_step := fun st => (chip.step st.2).run st.1
    z80_gen_int := fun st data => (chip.gen_int st.2 data).run st.1 }

/-- What a frame does that is visible outside the loop, in order. -/
inductive FrameAction where
  | quit_seen
  | cpu (call : CpuCall)
  | decoded
  | presented
  deriving DecidableEq, Repr

/-- The variables of `main` that the frame loop works on, and the log of the
actions performed so far. -/
structure LoopState (Z : Type) where
  /-- The statics of `main.c`. -/
  machine : Machine
  /-- The local `z80 cpu`. -/
  cpu : Z
  /-- The local `uint32_t framebuf[SCREEN_W*SCREEN_H]`. -/
  framebuf : Nat → Nat
  /-- The local `bool running`. -/
  running : Bool
  /-- The actions performed so far. -/
  log : List FrameAction

/-- The Decoding phase (lines 183-201). -/
def decoding {Z : Type} (st : LoopState Z) : LoopState Z :=
  { st with
    framebuf := decode_frame st.machine st.framebuf
    log := st.log ++ [FrameAction.decoded] }

/-- The loop state when the loop is entered (line 165) with machine `m`, CPU
`z` and frame buffer `fb`: `running` is true and nothing has been done yet. -/
def LoopState.enter {Z : Type} (m : Machine) (z : Z) (fb : Nat → Nat) : LoopState Z :=
  { machine := m, cpu := z, framebuf := fb, running := true, log := [] }

theorem forLoop_zero {σ : Type} (body : Nat → σ → σ) (s : σ) : forLoop 0 body s = s := rfl

theorem forLoop_succ {σ : Type} (n : Nat) (body : Nat → σ → σ) (s : σ) :
    forLoop (n + 1) body s = body n (forLoop n body s) := rfl

/-! ## Address-space bridge: properties -/

/-- C4 (ROM write protection): for every machine state, every address below
`ROM_SIZE = 0x4000` and every value, `write_byte` returns the state unchanged
(the function is total, so the write cannot fail); hence every `read_byte`
afterwards, at the written address in particular, returns the pre-write byte. -/
theorem C4_rom_write_is_dropped (s : Machine) (addr v : Nat) (h : addr < ROM_SIZE) :
    write_byte s addr v = s ∧
    read_byte (write_byte s addr v) addr = read_byte s addr ∧
    ∀ a, read_byte (write_byte s addr v) a = read_byte s a := by
  have hlt : addr % 65536 < ROM_SIZE := lt_of_le_of_lt (Nat.mod_le _ _) h
  have hw : write_byte s addr v = s := by
    unfold write_byte
    rw [if_neg (not_le.mpr hlt)]
  refine ⟨hw, by rw [hw], fun a => by rw [hw]⟩

/-- Witness of C4 at the zero-initialised machine, address `0x3FFF`, value `0xAB`. -/
theorem C4_rom_write_is_dropped_witness :
    0x3FFF < ROM_SIZE ∧
    (write_byte Machine.start 0x3FFF 0xAB = Machine.start ∧
     read_byte (write_byte Machine.start 0x3FFF 0xAB) 0x3FFF = read_byte Machine.start 0x3FFF ∧
     ∀ a, read_byte (write_byte Machine.start 0x3FFF 0xAB) a = read_byte Machine.start a) :=
  ⟨by decide, C4_rom_write_is_dropped Machine.start 0x3FFF 0xAB (by decide)⟩

/-- C5 (RAM write/read-back): for every machine state, every 16-bit address
`addr ≥ 0x4000` and every byte `v`, after `write_byte s addr v` a `read_byte` of
`addr` returns `v`, and a `read_byte` of every other 16-bit address returns what
it returned before the write. -/
theorem C5_ram_write_read_back (s : Machine) (addr v : Nat)
    (hram : ROM_SIZE ≤ addr) (haddr : addr < 65536) (hv : v < 256) :
    read_byte (write_byte s addr v) addr = v ∧
    ∀ a, a < 65536 → a ≠ addr → read_byte (write_byte s addr v) a = read_byte s a := by
  have hmod : addr % 65536 = addr := Nat.mod_eq_of_lt haddr
  have hw : write_byte s addr v =
      { s with memory := Function.update s.memory addr v } := by
    unfold write_byte
    rw [hmod, if_pos hram, Nat.mod_eq_of_lt hv]
  refine ⟨?_, fun a ha hne => ?_⟩
  · rw [hw]
    show Function.update s.memory addr v (addr % 65536) = v
    rw [hmod, Function.update_same]
  · rw [hw]
    show Function.update s.memory addr v (a % 65536) = s.memory (a % 65536)
    rw [Nat.mod_eq_of_lt ha, Function.update_noteq hne]

/-- Witness of C5 at the zero-initialised machine, address `0x4000`, value `0xAB`. -/
theorem C5_ram_write_read_back_witness :
    read_byte (write_byte Machine.start 0x4000 0xAB) 0x4000 = 0xAB ∧
    ∀ a, a < 65536 → a ≠ 0x4000 →
      read_byte (write_byte Machine.start 0x4000 0xAB) a = read_byte Machine.start a :=
  C5_ram_write_read_back Machine.start 0x4000 0xAB (by decide) (by decide) (by decide)

/-! ## Bit-level lemmas -/

theorem and_one_shiftLeft_ne_zero (a i : Nat) :
    (a &&& (1 <<< i) ≠ 0) ↔ a.testBit i = true := by
  rw [Nat.one_shiftLeft, Nat.and_two_pow]
  cases h : a.testBit i <;> simp [Nat.pos_iff_ne_zero]

theorem testBit_0xFF (j : Nat) : Nat.testBit 0xFF j = decide (j < 8) :=
  Nat.testBit_two_pow_sub_one 8 j

theorem testBit_0xE0 (j : Nat) : Nat.testBit 0xE0 j = (decide (5 ≤ j) && decide (j < 8)) := by
  by_cases h : j < 8
  · interval_cases j <;> decide
  · have h1 : Nat.testBit 0xE0 j = false :=
      Nat.testBit_lt_two_pow (lt_of_lt_of_le (by decide : 0xE0 < 2 ^ 8)
        (Nat.pow_le_pow_right (by decide) (not_lt.mp h)))
    rw [h1]
    simp [h]

theorem testBit_mod_256 (a j : Nat) : (a % 256).testBit j = (decide (j < 8) && a.testBit j) :=
  Nat.testBit_mod_two_pow a 8 j

theorem testBit_bitNot32 (e j : Nat) :
    (bitNot32 e).testBit j = (decide (j < 32) ^^ e.testBit j) := by
  unfold bitNot32
  rw [Nat.testBit_xor, show (0xFFFFFFFF : Nat) = 2 ^ 32 - 1 by decide,
    Nat.testBit_two_pow_sub_one]

/-- Bit `i` of the row-select mask `sel = ~cpu->b` is set iff bit `i` of `b` is clear. -/
theorem sel_testBit (b i : Nat) (hi : i < 8) :
    (bitNot32 (b % 256) % 256).testBit i = !b.testBit i := by
  rw [testBit_mod_256, testBit_bitNot32, testBit_mod_256]
  have h32 : i < 32 := by omega
  simp [hi, h32]

/-! ## Port I/O bridge: properties -/

theorem port_loop_testBit (km : Nat → Nat) (sel n j : Nat) :
    (forLoop n (portInBody km sel) 0xFF).testBit j =
      (decide (j < 8) && (List.range n).all (fun i => !sel.testBit i || (km i).testBit j)) := by
  induction n with
  | zero => simp [forLoop_zero, testBit_0xFF]
  | succ n ih =>
    rw [forLoop_succ, List.range_succ, List.all_append, portInBody]
    by_cases hs : sel.testBit n = true
    · rw [if_pos ((and_one_shiftLeft_ne_zero sel n).mpr hs), testBit_mod_256, Nat.testBit_and, ih]
      simp [hs]
      cases decide (j < 8) <;> simp
    · rw [if_neg (fun h => hs ((and_one_shiftLeft_ne_zero sel n).mp h)), ih]
      simp [hs]

theorem port_lo_bit (p : Nat) : ((p % 256) &&& 1 ≠ 0) ↔ p.testBit 0 = true := by
  rw [Nat.and_one_is_mod, Nat.testBit_zero]
  simp
  omega

theorem port_in_odd (s : Machine) (b p : Nat) (hp : p.testBit 0 = true) :
    port_in s b p = 0xFF := by
  unfold port_in
  rw [if_pos ((port_lo_bit p).mpr hp)]

theorem port_in_even (s : Machine) (b p : Nat) (hp : p.testBit 0 = false) :
    port_in s b p =
      (forLoop 8 (portInBody s.key_matrix (bitNot32 (b % 256) % 256)) 0xFF ||| 0xE0) % 256 := by
  unfold port_in
  rw [if_neg (fun h => by rw [(port_lo_bit p).mp h] at hp; exact Bool.noConfusion hp)]

/-- Bit `j` of a keyboard read: bits 5 to 7 are set, bits above are clear, and
a bit below 5 is set iff every selected row has it set. -/
theorem port_in_testBit (s : Machine) (b p j : Nat) (hp : p.testBit 0 = false) :
    (port_in s b p).testBit j =
      (decide (j < 8) && (decide (5 ≤ j) ||
        (List.range 8).all (fun i => b.testBit i || (s.key_matrix i).testBit j))) := by
  rw [port_in_even s b p hp, testBit_mod_256, Nat.testBit_or, port_loop_testBit, testBit_0xE0]
  have hall : (List.range 8).all
        (fun i => !(bitNot32 (b % 256) % 256).testBit i || (s.key_matrix i).testBit j) =
      (List.range 8).all (fun i => b.testBit i || (s.key_matrix i).testBit j) := by
    rw [Bool.eq_iff_iff]
    simp only [List.all_eq_true, List.mem_range]
    constructor
    · intro h i hi
      have := h i hi
      rwa [sel_testBit b i hi, Bool.not_not] at this
    · intro h i hi
      rw [sel_testBit b i hi, Bool.not_not]
      exact h i hi
  rw [hall, Bool.or_comm]
  cases decide (j < 8) <;> cases decide (5 ≤ j) <;> simp


theorem foldl_and_testBit (km : Nat → Nat) (l : List Nat) (acc j : Nat) :
    (l.foldl (fun a i => a &&& km i) acc).testBit j =
      (acc.testBit j && l.all (fun i => (km i).testBit j)) := by
  induction l generalizing acc with
  | nil => simp
  | cons x xs ih =>
    rw [List.foldl_cons, ih, Nat.testBit_and, List.all_cons, Bool.and_assoc]

theorem specPortIn_testBit (km : Nat → Nat) (B j : Nat) :
    (specPortIn km B).testBit j =
      (decide (j < 8) && (decide (5 ≤ j) ||
        (List.range 8).all (fun i => B.testBit i || (km i).testBit j))) := by
  unfold specPortIn
  rw [Nat.testBit_or, foldl_and_testBit, testBit_0xE0, testBit_0xFF]
  have hall : ((List.range 8).filter (fun i => !B.testBit i)).all (fun i => (km i).testBit j) =
      (List.range 8).all (fun i => B.testBit i || (km i).testBit j) := by
    rw [Bool.eq_iff_iff]
    simp only [List.all_eq_true, List.mem_filter, List.mem_range]
    constructor
    · intro h i hi
      cases hb : B.testBit i
      · simpa using h i ⟨hi, by simp [hb]⟩
      · simp
    · intro h i hi
      have := h i hi.1
      have hb : B.testBit i = false := by simpa using hi.2
      simpa [hb] using this
  rw [hall]
  cases decide (j < 8) <;> cases decide (5 ≤ j) <;> simp

/-- C3 (port read): for every machine state, row-select byte `B` and port low
byte `p`, `port_in` returns `0xFF` when bit 0 of `p` is 1 and otherwise `0xE0`
OR the AND (from `0xFF`) of the rows whose bit of `B` is 0.  Consequently bits
5, 6, 7 of the result are always 1, with bit 0 of `p` clear a result bit `j < 5`
is 0 iff some selected row has bit `j` equal to 0, and with no row selected
(`B = 0xFF`) the result is `0xFF`. -/
theorem C3_port_in_spec (s : Machine) (B p : Nat) :
    port_in s B p = (if p.testBit 0 then 0xFF else specPortIn s.key_matrix B) ∧
    (∀ j, 5 ≤ j ∧ j < 8 → (port_in s B p).testBit j = true) ∧
    (∀ j, j < 5 ∧ p.testBit 0 = false →
      ((port_in s B p).testBit j = false ↔
        ∃ i, i < 8 ∧ B.testBit i = false ∧ (s.key_matrix i).testBit j = false)) ∧
    port_in s 0xFF p = 0xFF := by
  refine ⟨?_, ?_, ?_, ?_⟩
  · cases hp : p.testBit 0
    · simp only [Bool.false_eq_true, if_false]
      apply Nat.eq_of_testBit_eq
      intro j
      rw [port_in_testBit s B p j hp, specPortIn_testBit]
    · simp only [if_true]
      exact port_in_odd s B p hp
  · rintro j ⟨h5, h8⟩
    cases hp : p.testBit 0
    · rw [port_in_testBit s B p j hp]
      simp [h5, h8]
    · rw [port_in_odd s B p hp, testBit_0xFF]
      simp [h8]
  · rintro j ⟨h5, hp⟩
    rw [port_in_testBit s B p j hp]
    have h8 : j < 8 := by omega
    have h5n : ¬ 5 ≤ j := by omega
    simp only [h8, h5n, decide_True, decide_False, Bool.true_and, Bool.false_or]
    rw [← Bool.not_eq_true, List.all_eq_true]
    simp only [List.mem_range, not_forall]
    constructor
    · rintro ⟨i, hi, h⟩
      refine ⟨i, hi, ?_⟩
      cases hb : B.testBit i <;> cases hk : (s.key_matrix i).testBit j <;> simp_all
    · rintro ⟨i, hi, hb, hk⟩
      exact ⟨i, hi, by simp [hb, hk]⟩
  · cases hp : p.testBit 0
    · apply Nat.eq_of_testBit_eq
      intro j
      rw [port_in_testBit s 0xFF p j hp, testBit_0xFF]
      have hall : (List.range 8).all
          (fun i => Nat.testBit 0xFF i || (s.key_matrix i).testBit j) = true := by
        rw [List.all_eq_true]
        intro i hi
        rw [testBit_0xFF]
        simp [List.mem_range.mp hi]
      rw [hall]
      simp
    · exact port_in_odd s 0xFF p hp

/-- C7 (border latch): for every machine state, port low byte `p` and value
`v`, `port_out` sets `border_color` to `(v >> 1) & 0x07` when bit 0 of `p` is 0
and returns the state unchanged when bit 0 of `p` is 1; memory and the keyboard
matrix are unchanged in both cases, and `v = 0b00001110` gives border `0b111`
on a port with bit 0 clear. -/
theorem C7_border_latch (s : Machine) (p v : Nat) :
    port_out s p v =
      (if p.testBit 0 then s else { s with border_color := (v >>> 1) &&& 0x07 }) ∧
    (port_out s p v).memory = s.memory ∧
    (port_out s p v).key_matrix = s.key_matrix ∧
    (port_out s p 0b00001110).border_color = (if p.testBit 0 then s.border_color else 0b111) := by
  have hval : ∀ u : Nat, (((u % 256) >>> 1) &&& 0x07) % 256 = (u >>> 1) &&& 0x07 := by
    intro u
    have h7 : ∀ a : Nat, a &&& 0x07 = a % 2 ^ 3 := fun a => Nat.and_pow_two_sub_one_eq_mod a 3
    rw [h7, h7, Nat.shiftRight_eq_div_pow, Nat.shiftRight_eq_div_pow]
    omega
  have hodd : p.testBit 0 = true → port_out s p v = s ∧ port_out s p 0b00001110 = s := by
    intro hp
    have h : ¬ (p % 256) &&& 1 = 0 := (port_lo_bit p).mpr hp
    exact ⟨by rw [port_out, if_neg h], by rw [port_out, if_neg h]⟩
  have heven : p.testBit 0 = false →
      port_out s p v = { s with border_color := (v >>> 1) &&& 0x07 } ∧
      port_out s p 0b00001110 = { s with border_color := 0b111 } := by
    intro hp
    have h : (p % 256) &&& 1 = 0 := by
      by_contra hne
      rw [(port_lo_bit p).mp hne] at hp
      exact Bool.noConfusion hp
    exact ⟨by rw [port_out, if_pos h, hval], by rw [port_out, if_pos h]; rfl⟩
  cases hp : p.testBit 0
  · obtain ⟨h1, h2⟩ := heven hp
    simp [h1, h2]
  · obtain ⟨h1, h2⟩ := hodd hp
    simp [h1, h2]

/-! ## Keyboard matrix: properties -/

theorem handle_sdl_key_eq (s : Machine) (sc : SDL_Scancode) (pressed : Bool) :
    handle_sdl_key s sc pressed =
      match keyCoord sc with
      | some (r, b) => update_key s r b pressed
      | none => s := by
  cases sc <;> rfl

theorem keyCoord_range (sc : SDL_Scancode) (r b : Nat) (h : keyCoord sc = some (r, b)) :
    r < 8 ∧ b < 5 := by
  cases sc <;> simp only [keyCoord, Option.some.injEq, Prod.mk.injEq, reduceCtorEq] at h <;>
    obtain ⟨rfl, rfl⟩ := h <;> decide

theorem init_keyboard_key_matrix (s : Machine) (i : Nat) :
    (init_keyboard s).key_matrix i = if i < 8 then 0x1F else s.key_matrix i := by
  have h : ∀ n, (forLoop n
      (fun i (t : Machine) => { t with key_matrix := Function.update t.key_matrix i 0x1F }) s).key_matrix i
      = if i < n then 0x1F else s.key_matrix i := by
    intro n
    induction n with
    | zero => simp [forLoop_zero]
    | succ n ih =>
      rw [forLoop_succ]
      show Function.update _ n 0x1F i = _
      by_cases hi : i = n
      · subst hi
        simp
      · rw [Function.update_noteq hi, ih]
        by_cases h1 : i < n
        · simp [h1, Nat.lt_succ_of_lt h1]
        · have h2 : ¬ i < n + 1 := by omega
          simp [h1, h2]
  exact h 8

theorem pressed_row_value (b : Nat) (hb : b < 5) :
    (0x1F &&& bitNot32 (1 <<< b)) % 256 = 0x1F - 2 ^ b ∧
    (((0x1F &&& bitNot32 (1 <<< b)) % 256) ||| (1 <<< b)) % 256 = 0x1F := by
  interval_cases b <;> decide

theorem testBit_pressed_row (b j : Nat) (hb : b < 5) :
    (0x1F - 2 ^ b).testBit j = (decide (j < 5) && !decide (b = j)) := by
  have h := Nat.testBit_two_pow_sub_succ (show 2 ^ b < 2 ^ 5 from
    Nat.pow_lt_pow_right (by decide) hb) j
  rw [Nat.testBit_two_pow] at h
  have e : 2 ^ 5 - (2 ^ b + 1) = 0x1F - 2 ^ b := by omega
  rw [e] at h
  exact h

theorem testBit_0xFF_sub (b j : Nat) (hb : b < 8) :
    (0xFF - 2 ^ b).testBit j = (decide (j < 8) && !decide (b = j)) := by
  have h := Nat.testBit_two_pow_sub_succ (show 2 ^ b < 2 ^ 8 from
    Nat.pow_lt_pow_right (by decide) hb) j
  rw [Nat.testBit_two_pow] at h
  have e : 2 ^ 8 - (2 ^ b + 1) = 0xFF - 2 ^ b := by omega
  rw [e] at h
  exact h

theorem testBit_0x1F (j : Nat) : Nat.testBit 0x1F j = decide (j < 5) :=
  Nat.testBit_two_pow_sub_one 5 j

theorem update_key_pressed (s : Machine) (r b : Nat) :
    update_key s r b true =
      { s with
        key_matrix :=
          Function.update s.key_matrix r ((s.key_matrix r &&& bitNot32 (1 <<< b)) % 256) } := by
  simp [update_key]

theorem update_key_released (s : Machine) (r b : Nat) :
    update_key s r b false =
      { s with
        key_matrix := Function.update s.key_matrix r ((s.key_matrix r ||| (1 <<< b)) % 256) } := by
  simp [update_key]

theorem pressed_key_matrix (s0 : Machine) (r b : Nat) (hr : r < 8) (hb : b < 5) :
    (update_key (init_keyboard s0) r b true).key_matrix =
      Function.update (init_keyboard s0).key_matrix r (0x1F - 2 ^ b) := by
  have h0 : (init_keyboard s0).key_matrix r = 0x1F := by
    rw [init_keyboard_key_matrix, if_pos hr]
  rw [update_key_pressed]
  simp only
  rw [h0, (pressed_row_value b hb).1]

theorem released_machine (s0 : Machine) (r b : Nat) (hr : r < 8) (hb : b < 5) :
    update_key (update_key (init_keyboard s0) r b true) r b false = init_keyboard s0 := by
  have h0 : (init_keyboard s0).key_matrix r = 0x1F := by
    rw [init_keyboard_key_matrix, if_pos hr]
  have hkm : Function.update (update_key (init_keyboard s0) r b true).key_matrix r
      (((update_key (init_keyboard s0) r b true).key_matrix r ||| (1 <<< b)) % 256) =
      (init_keyboard s0).key_matrix := by
    rw [pressed_key_matrix s0 r b hr hb, Function.update_same, Function.update_idem,
      ← (pressed_row_value b hb).1, (pressed_row_value b hb).2, ← h0, Function.update_eq_self]
  rw [update_key_released, hkm, update_key_pressed]

/-- C6 (keyboard press/release round trip): from the initial matrix set up by
`init_keyboard`, for every mapped host key `sc` (its `case` calls
`update_key` at coordinate `(r, b)`), after the key is pressed a port read with
port bit 0 clear and a row-select `B` that selects row `r` (bit `r` of `B` is
0; `B = 0x00` selects every row) returns `0xFF` with only bit `b` cleared;
after the key is then released the same read returns `0xFF` and the machine,
its keyboard matrix included, equals the initial one. -/
theorem C6_press_release_round_trip (s0 : Machine) (sc : SDL_Scancode) (r b B p : Nat)
    (hkey : keyCoord sc = some (r, b)) (hp : p.testBit 0 = false)
    (hsel : B.testBit r = false) :
    (∀ t pr, handle_sdl_key t sc pr = update_key t r b pr) ∧
    port_in (handle_sdl_key (init_keyboard s0) sc true) B p = 0xFF - 2 ^ b ∧
    port_in (handle_sdl_key (handle_sdl_key (init_keyboard s0) sc true) sc false) B p = 0xFF ∧
    (handle_sdl_key (handle_sdl_key (init_keyboard s0) sc true) sc false).key_matrix =
      (init_keyboard s0).key_matrix ∧
    ∀ i, i < 8 → (init_keyboard s0).key_matrix i = 0x1F := by
  obtain ⟨hr, hb⟩ := keyCoord_range sc r b hkey
  have hh : ∀ t pr, handle_sdl_key t sc pr = update_key t r b pr := by
    intro t pr
    rw [handle_sdl_key_eq, hkey]
  have hinit : ∀ i, i < 8 → (init_keyboard s0).key_matrix i = 0x1F := by
    intro i hi
    rw [init_keyboard_key_matrix, if_pos hi]
  refine ⟨hh, ?_, ?_, ?_, hinit⟩
  · rw [hh]
    apply Nat.eq_of_testBit_eq
    intro j
    rw [port_in_testBit _ B p j hp, testBit_0xFF_sub b j (by omega), pressed_key_matrix s0 r b hr hb]
    by_cases h8 : j < 8
    · by_cases h5 : 5 ≤ j
      · have hbj : ¬ b = j := by omega
        simp [h8, h5, hbj]
      · have h5' : j < 5 := by omega
        by_cases hbj : b = j
        · subst hbj
          have hall : (List.range 8).all (fun i => B.testBit i ||
              (Function.update (init_keyboard s0).key_matrix r (0x1F - 2 ^ b) i).testBit b) = false := by
            rw [← Bool.not_eq_true, List.all_eq_true]
            intro h
            have := h r (List.mem_range.mpr hr)
            rw [hsel, Function.update_same, testBit_pressed_row b b hb] at this
            simp at this
          rw [hall]
          simp [h5]
        · have hall : (List.range 8).all (fun i => B.testBit i ||
              (Function.update (init_keyboard s0).key_matrix r (0x1F - 2 ^ b) i).testBit j) = true := by
            rw [List.all_eq_true]
            intro i hi
            by_cases hir : i = r
            · subst hir
              rw [Function.update_same, testBit_pressed_row b j hb]
              simp [h5', hbj]
            · rw [Function.update_noteq hir, hinit i (List.mem_range.mp hi), testBit_0x1F]
              simp [h5']
          rw [hall]
          simp [h8, hbj]
    · simp [h8]
  · rw [hh, hh, released_machine s0 r b hr hb]
    apply Nat.eq_of_testBit_eq
    intro j
    rw [port_in_testBit _ B p j hp, testBit_0xFF]
    by_cases h8 : j < 8
    · by_cases h5 : 5 ≤ j
      · simp [h8, h5]
      · have hall : (List.range 8).all (fun i => B.testBit i ||
            ((init_keyboard s0).key_matrix i).testBit j) = true := by
          rw [List.all_eq_true]
          intro i hi
          rw [hinit i (List.mem_range.mp hi), testBit_0x1F]
          have h5' : j < 5 := by omega
          simp [h5']
        rw [hall]
        simp [h8]
    · simp [h8]
  · rw [hh, hh, released_machine s0 r b hr hb]

/-- Witness of C6: the key `SDL_SCANCODE_A` (row 1, bit 0) read with full
row-select `B = 0x00` on port `0xFE`, from the zero-initialised machine. -/
theorem C6_press_release_round_trip_witness :
    port_in (handle_sdl_key (init_keyboard Machine.start) SDL_Scancode.SDL_SCANCODE_A true)
      0x00 0xFE = 0xFF - 2 ^ 0 ∧
    port_in (handle_sdl_key (handle_sdl_key (init_keyboard Machine.start)
      SDL_Scancode.SDL_SCANCODE_A true) SDL_Scancode.SDL_SCANCODE_A false) 0x00 0xFE = 0xFF :=
  let h := C6_press_release_round_trip Machine.start SDL_Scancode.SDL_SCANCODE_A 1 0 0x00 0xFE
    (by rfl) (by decide) (by decide)
  ⟨h.2.1, h.2.2.1⟩


/-! ## Video decoder: the frame buffer after the loops -/

theorem draw_row_get (s : Machine) (y n : Nat) (fb : Nat → Nat) (i : Nat) :
    forLoop n (fun x fb1 => draw_pixel s y x fb1) fb i =
      if y * SCREEN_W ≤ i ∧ i < y * SCREEN_W + n
      then palette.getD (pixel_col s y (i - y * SCREEN_W)) 0 else fb i := by
  induction n with
  | zero =>
    rw [forLoop_zero, if_neg (by omega)]
  | succ n ih =>
    rw [forLoop_succ, draw_pixel]
    by_cases hi : i = y * SCREEN_W + n
    · subst hi
      rw [Function.update_same, if_pos (by omega)]
      congr 2
      omega
    · rw [Function.update_noteq hi, ih]
      by_cases h : y * SCREEN_W ≤ i ∧ i < y * SCREEN_W + n
      · rw [if_pos h, if_pos (by omega)]
      · rw [if_neg h, if_neg (by omega)]

theorem draw_rows_get (s : Machine) (m : Nat) (fb : Nat → Nat) (i : Nat) :
    forLoop m (fun y fb0 => forLoop SCREEN_W (fun x fb1 => draw_pixel s y x fb1) fb0) fb i =
      if i < m * SCREEN_W
      then palette.getD (pixel_col s (i / SCREEN_W) (i % SCREEN_W)) 0 else fb i := by
  have hW : SCREEN_W = 256 := rfl
  induction m with
  | zero =>
    rw [forLoop_zero, if_neg (by omega)]
  | succ m ih =>
    rw [forLoop_succ, draw_row_get, ih]
    rw [hW] at *
    by_cases h : m * 256 ≤ i ∧ i < m * 256 + 256
    · rw [if_pos h, if_pos (by omega)]
      have h1 : i / 256 = m := by omega
      have h2 : i % 256 = i - m * 256 := by omega
      rw [h1, h2]
    · rw [if_neg h]
      by_cases h3 : i < m * 256
      · rw [if_pos h3, if_pos (by omega)]
      · rw [if_neg h3, if_neg (by omega)]

/-- After the decoding step, the frame-buffer entry of pixel `(x, y)` holds the
palette entry selected by `pixel_col`, whatever the buffer held before. -/
theorem decode_frame_pixel (s : Machine) (fb : Nat → Nat) (y x : Nat)
    (hy : y < 192) (hx : x < 256) :
    decode_frame s fb (y * 256 + x) = palette.getD (pixel_col s y x) 0 := by
  unfold decode_frame draw_screen
  rw [draw_rows_get]
  have hW : SCREEN_W = 256 := rfl
  have hH : SCREEN_H = 192 := rfl
  rw [hW, hH, if_pos (by omega)]
  have h1 : (y * 256 + x) / 256 = y := by omega
  have h2 : (y * 256 + x) % 256 = x := by omega
  rw [h1, h2]

theorem and_0x40_ne_zero (a : Nat) : ((a &&& 0x40) != 0) = a.testBit 6 := by
  rw [show (0x40 : Nat) = 2 ^ 6 by decide, Nat.and_two_pow]
  cases a.testBit 6 <;> simp

theorem and_0x80_ne_zero (a : Nat) : ((a &&& 0x80) != 0) = a.testBit 7 := by
  rw [show (0x80 : Nat) = 2 ^ 7 by decide, Nat.and_two_pow]
  cases a.testBit 7 <;> simp

theorem and_seven_lt (a : Nat) : a &&& 7 < 8 :=
  Nat.and_lt_two_pow a (show 7 < 2 ^ 3 by decide)

theorem bitmap_mask_le (x : Nat) : 0x80 >>> (x &&& 7) ≤ 0x80 := by
  rw [Nat.shiftRight_eq_div_pow]
  exact Nat.div_le_self _ _

theorem bitmap_bit_mod (m x : Nat) :
    (m &&& (0x80 >>> (x &&& 7))) % 256 = m &&& (0x80 >>> (x &&& 7)) := by
  apply Nat.mod_eq_of_lt
  have h1 : m &&& (0x80 >>> (x &&& 7)) ≤ 0x80 >>> (x &&& 7) := Nat.and_le_right
  have h2 := bitmap_mask_le x
  omega

theorem specColourIndex_lt (A : Nat) (bit flashState : Bool) :
    specColourIndex A bit flashState < 16 := by
  unfold specColourIndex
  have h1 := and_seven_lt A
  have h2 := and_seven_lt (A >>> 3)
  simp only
  split_ifs <;> omega

theorem pixel_col_eq (s : Machine) (y x : Nat) :
    pixel_col s y x =
      specColourIndex (s.memory (attrAddr y x))
        (decide (s.memory (bitmapAddr y x) &&& (0x80 >>> (x &&& 7)) ≠ 0)) s.flash_state := by
  have hlt := specColourIndex_lt (s.memory (attrAddr y x))
        (decide (s.memory (bitmapAddr y x) &&& (0x80 >>> (x &&& 7)) ≠ 0)) s.flash_state
  rw [← Nat.mod_eq_of_lt (lt_trans hlt (by decide : 16 < 256))]
  unfold pixel_col specColourIndex
  simp only [bitmap_bit_mod, and_0x40_ne_zero, and_0x80_ne_zero]
  congr 1
  by_cases hb : s.memory (bitmapAddr y x) &&& (0x80 >>> (x &&& 7)) = 0 <;>
    cases ((s.memory (attrAddr y x)).testBit 7 && s.flash_state) <;> simp [hb]

theorem palette_lookup (c : Nat) (hc : c < 16) : palette[c]? = some (palette.getD c 0) := by
  interval_cases c <;> rfl

/-- C1 (video decoder, per pixel): for every machine state, previous frame
buffer, `y < 192` and `x < 256`, the decoded entry `framebuf[y*256 + x]` is
`palette[idx]`, where `A = memory[0x5800 + (y/8)*32 + (x/8)]`, the bitmap bit is
`memory[0x4000 + y0 + (x>>3)] & (0x80 >> (x&7))`, and `idx` is the index of
`specColourIndex` (ink `A & 7`, paper `(A >> 3) & 7`, bright bit 6, flash bit 7,
swap exactly when flash and the flash state are both true); `idx < 16`, so the
lookup is inside the 16-entry palette. -/
theorem C1_decoded_pixel (s : Machine) (fb : Nat → Nat) (y x : Nat)
    (hy : y < 192) (hx : x < 256) :
    specColourIndex (s.memory (0x5800 + (y / 8) * 32 + x / 8))
        (decide (s.memory (0x4000 + y0 y + (x >>> 3)) &&& (0x80 >>> (x &&& 7)) ≠ 0))
        s.flash_state < 16 ∧
    palette.length = 16 ∧
    palette[specColourIndex (s.memory (0x5800 + (y / 8) * 32 + x / 8))
        (decide (s.memory (0x4000 + y0 y + (x >>> 3)) &&& (0x80 >>> (x &&& 7)) ≠ 0))
        s.flash_state]? = some (decode_frame s fb (y * 256 + x)) := by
  refine ⟨specColourIndex_lt _ _ _, rfl, ?_⟩
  rw [decode_frame_pixel s fb y x hy hx, pixel_col_eq]
  exact palette_lookup _ (specColourIndex_lt _ _ _)

/-- Witness of C1 at the zero-initialised machine, an all-zero previous frame
buffer and the pixel `(x, y) = (5, 3)`. -/
theorem C1_decoded_pixel_witness :
    (3 < 192 ∧ 5 < 256) ∧
    specColourIndex (Machine.start.memory (0x5800 + (3 / 8) * 32 + 5 / 8))
        (decide (Machine.start.memory (0x4000 + y0 3 + (5 >>> 3)) &&& (0x80 >>> (5 &&& 7)) ≠ 0))
        Machine.start.flash_state < 16 ∧
    palette.length = 16 ∧
    palette[specColourIndex (Machine.start.memory (0x5800 + (3 / 8) * 32 + 5 / 8))
        (decide (Machine.start.memory (0x4000 + y0 3 + (5 >>> 3)) &&& (0x80 >>> (5 &&& 7)) ≠ 0))
        Machine.start.flash_state]? = some (decode_frame Machine.start (fun _ => 0) (3 * 256 + 5)) :=
  ⟨by decide, C1_decoded_pixel Machine.start (fun _ => 0) 3 5 (by decide) (by decide)⟩

/-! ## Bitmap addressing -/

set_option maxRecDepth 100000 in
theorem y0_fields (y : Nat) (hy : y < 192) :
    y0 y = ((y &&& 0xC0) <<< 5) + ((y &&& 0x07) <<< 8) + ((y &&& 0x38) <<< 2) ∧
    ((0x4000 + ((y &&& 0xC0) <<< 5)) ||| ((y &&& 0x07) <<< 8)) =
      0x4000 + ((y &&& 0xC0) <<< 5) + ((y &&& 0x07) <<< 8) ∧
    (0x4000 + ((y &&& 0xC0) <<< 5) + ((y &&& 0x07) <<< 8)) % 256 = 0 ∧
    ((y &&& 0x38) <<< 2) + 31 < 256 := by
  revert y
  decide

theorem or_low_byte (a c : Nat) (ha : a % 256 = 0) (hc : c < 256) : a ||| c = a + c := by
  have h := Nat.mul_add_lt_is_or (show c < 2 ^ 8 from hc) (a / 256)
  have e : 2 ^ 8 * (a / 256) = a := by omega
  rw [e] at h
  exact h.symm

theorem bitmap_mask_eq (x : Nat) : 0x80 >>> (x &&& 7) = 2 ^ (7 - x % 8) := by
  have h7 : x &&& 7 = x % 2 ^ 3 := Nat.and_pow_two_sub_one_eq_mod x 3
  rw [h7]
  have hk : x % 8 < 8 := Nat.mod_lt _ (by decide)
  show 0x80 >>> (x % 8) = 2 ^ (7 - x % 8)
  generalize x % 8 = k at hk
  interval_cases k <;> decide

theorem bitmap_bit_testBit (m x : Nat) :
    decide (m &&& (0x80 >>> (x &&& 7)) ≠ 0) = m.testBit (7 - x % 8) := by
  rw [bitmap_mask_eq, Nat.and_two_pow]
  cases m.testBit (7 - x % 8) <;> simp

/-- C2 (bitmap addressing): for `y < 192` and `x < 256` the address the decoder
reads, `0x4000 + y0 + (x >> 3)`, equals the specification's formula read with C
operator precedence and equally with every `|` read as `+`; the mask
`0x80 >> (x & 7)` selects bit `7 - x % 8` of that byte, and the pixel takes the
ink side of the colour index iff that bit is set. -/
theorem C2_bitmap_addressing (s : Machine) (y x : Nat) (hy : y < 192) (hx : x < 256) :
    0x4000 + y0 y + (x >>> 3) = specBitmapAddr y x ∧
    0x4000 + y0 y + (x >>> 3) = specBitmapAddrSum y x ∧
    (s.memory (specBitmapAddr y x) &&& (0x80 >>> (x &&& 7)) ≠ 0 ↔
      (s.memory (specBitmapAddr y x)).testBit (7 - x % 8) = true) ∧
    pixel_col s y x =
      specColourIndex (s.memory (attrAddr y x))
        ((s.memory (specBitmapAddr y x)).testBit (7 - x % 8)) s.flash_state := by
  obtain ⟨h1, h2, h3, h4⟩ := y0_fields y hy
  have hx3 : x >>> 3 < 32 := by
    rw [Nat.shiftRight_eq_div_pow]
    omega
  have hsum : 0x4000 + y0 y + (x >>> 3) = specBitmapAddrSum y x := by
    unfold specBitmapAddrSum
    rw [h1]
    omega
  have hspec : specBitmapAddr y x = specBitmapAddrSum y x := by
    unfold specBitmapAddr specBitmapAddrSum
    rw [h2, or_low_byte _ _ h3 (by omega)]
    omega
  have haddr : bitmapAddr y x = specBitmapAddr y x := by
    unfold bitmapAddr
    rw [hsum, hspec]
  refine ⟨by rw [hsum, hspec], hsum, ?_, ?_⟩
  · rw [← bitmap_bit_testBit, decide_eq_true_iff]
  · rw [pixel_col_eq, haddr, bitmap_bit_testBit]

/-- Witness of C2 at the zero-initialised machine and the pixel `(x, y) = (5, 3)`. -/
theorem C2_bitmap_addressing_witness :
    (3 < 192 ∧ 5 < 256) ∧
    0x4000 + y0 3 + (5 >>> 3) = specBitmapAddr 3 5 ∧
    0x4000 + y0 3 + (5 >>> 3) = specBitmapAddrSum 3 5 ∧
    (Machine.start.memory (specBitmapAddr 3 5) &&& (0x80 >>> (5 &&& 7)) ≠ 0 ↔
      (Machine.start.memory (specBitmapAddr 3 5)).testBit (7 - 5 % 8) = true) ∧
    pixel_col Machine.start 3 5 =
      specColourIndex (Machine.start.memory (attrAddr 3 5))
        ((Machine.start.memory (specBitmapAddr 3 5)).testBit (7 - 5 % 8))
        Machine.start.flash_state :=
  ⟨by decide, C2_bitmap_addressing Machine.start 3 5 (by decide) (by decide)⟩


/-! ## Flash swap -/

set_option maxRecDepth 100000 in
theorem y0_lt (y : Nat) (hy : y < 192) : y0 y + 31 < 0x1800 := by
  revert y
  decide

theorem bitmapAddr_lt_attrAddr (y x y1 x1 : Nat) (hy : y < 192) (hx : x < 256) :
    bitmapAddr y x < attrAddr y1 x1 := by
  have h := y0_lt y hy
  have hx3 : x >>> 3 < 32 := by
    rw [Nat.shiftRight_eq_div_pow]
    omega
  unfold bitmapAddr attrAddr
  omega

theorem specColourIndex_mod (A : Nat) (bit fs : Bool) :
    specColourIndex A bit fs = specColourIndex (A % 256) bit fs := by
  have h7 : ∀ a : Nat, a &&& 7 = a % 2 ^ 3 := fun a => Nat.and_pow_two_sub_one_eq_mod a 3
  have e1 : (A % 256) &&& 7 = A &&& 7 := by
    rw [h7, h7]
    omega
  have e2 : ((A % 256) >>> 3) &&& 7 = (A >>> 3) &&& 7 := by
    rw [h7, h7, Nat.shiftRight_eq_div_pow, Nat.shiftRight_eq_div_pow]
    omega
  have e3 : (A % 256).testBit 6 = A.testBit 6 := by
    rw [testBit_mod_256]
    simp
  have e4 : (A % 256).testBit 7 = A.testBit 7 := by
    rw [testBit_mod_256]
    simp
  unfold specColourIndex
  rw [e1, e2, e3, e4]

theorem swapInkPaper_mod (A : Nat) : swapInkPaper A = swapInkPaper (A % 256) := by
  have h7 : ∀ a : Nat, a &&& 7 = a % 2 ^ 3 := fun a => Nat.and_pow_two_sub_one_eq_mod a 3
  have e1 : (A % 256) &&& 7 = A &&& 7 := by
    rw [h7, h7]
    omega
  have e2 : ((A % 256) >>> 3) &&& 7 = (A >>> 3) &&& 7 := by
    rw [h7, h7, Nat.shiftRight_eq_div_pow, Nat.shiftRight_eq_div_pow]
    omega
  have e3 : (A % 256) &&& 0xC0 = A &&& 0xC0 := by
    have hff : A % 256 = A &&& 0xFF := (Nat.and_pow_two_sub_one_eq_mod A 8).symm
    rw [hff, Nat.and_assoc]
    rfl
  unfold swapInkPaper
  rw [e1, e2, e3]

set_option maxRecDepth 100000 in
theorem flash_swap_bytes : ∀ a, a < 256 → a.testBit 7 = true → ∀ bit : Bool,
    specColourIndex a bit true = specColourIndex (swapInkPaper a) bit false := by
  decide

theorem flash_swap_attr (A : Nat) (bit : Bool) (h : A.testBit 7 = true) :
    specColourIndex A bit true = specColourIndex (swapInkPaper A) bit false := by
  rw [specColourIndex_mod A, swapInkPaper_mod A]
  have h7 : (A % 256).testBit 7 = true := by
    rw [testBit_mod_256, h]
    rfl
  exact flash_swap_bytes (A % 256) (Nat.mod_lt _ (by decide)) h7 bit

theorem flash_swap_bit (A : Nat) (bit : Bool) (h : A.testBit 7 = true) :
    specColourIndex A bit true = specColourIndex A (!bit) false := by
  unfold specColourIndex
  cases bit <;> simp [h]

/-- C8 (flash swap): for every machine state, every pixel `(x, y)` whose
attribute byte `A` has the flash bit (bit 7) set, and any previous frame
buffers `fb1`, `fb2`, `fb3` (unrelated to each other), the colour decoded with
flash state true is `palette[(bit ? paper : ink) + (bright ? 8 : 0)]`, the
colour decoded with flash state false is
`palette[(bit ? ink : paper) + (bright ? 8 : 0)]`, and the former equals the
colour decoded with flash state false after the attribute byte is replaced by
the same byte with ink and paper exchanged, and equally the colour decoded
with flash state false after the pixel's bit in its bitmap byte is inverted. -/
theorem C8_flash_swap (s : Machine) (fb1 fb2 fb3 : Nat → Nat) (y x : Nat)
    (hy : y < 192) (hx : x < 256) (hfl : (s.memory (attrAddr y x)).testBit 7 = true) :
    decode_frame { s with flash_state := true } fb1 (y * 256 + x) =
      decode_frame { s with
        flash_state := false
        memory := Function.update s.memory (attrAddr y x) (swapInkPaper (s.memory (attrAddr y x))) }
        fb2 (y * 256 + x) ∧
    decode_frame { s with flash_state := true } fb1 (y * 256 + x) =
      decode_frame { s with
        flash_state := false
        memory := Function.update s.memory (bitmapAddr y x)
          (s.memory (bitmapAddr y x) ^^^ (0x80 >>> (x &&& 7))) }
        fb3 (y * 256 + x) ∧
    decode_frame { s with flash_state := true } fb1 (y * 256 + x) =
      palette.getD
        ((if s.memory (bitmapAddr y x) &&& (0x80 >>> (x &&& 7)) ≠ 0
          then (s.memory (attrAddr y x) >>> 3) &&& 7 else s.memory (attrAddr y x) &&& 7) +
         (if (s.memory (attrAddr y x)).testBit 6 then 8 else 0)) 0 ∧
    decode_frame { s with flash_state := false } fb2 (y * 256 + x) =
      palette.getD
        ((if s.memory (bitmapAddr y x) &&& (0x80 >>> (x &&& 7)) ≠ 0
          then s.memory (attrAddr y x) &&& 7 else (s.memory (attrAddr y x) >>> 3) &&& 7) +
         (if (s.memory (attrAddr y x)).testBit 6 then 8 else 0)) 0 := by
  have hne : bitmapAddr y x ≠ attrAddr y x := ne_of_lt (bitmapAddr_lt_attrAddr y x y x hy hx)
  refine ⟨?_, ?_, ?_, ?_⟩
  · rw [decode_frame_pixel _ fb1 y x hy hx, decode_frame_pixel _ fb2 y x hy hx,
      pixel_col_eq, pixel_col_eq]
    simp only [Function.update_same, Function.update_noteq hne]
    rw [flash_swap_attr _ _ hfl]
  · rw [decode_frame_pixel _ fb1 y x hy hx, decode_frame_pixel _ fb3 y x hy hx,
      pixel_col_eq, pixel_col_eq]
    simp only [Function.update_same, Function.update_noteq hne.symm]
    rw [flash_swap_bit _ _ hfl, bitmap_bit_testBit, bitmap_bit_testBit, bitmap_mask_eq,
      Nat.testBit_xor, Nat.testBit_two_pow_self, Bool.xor_true]
  · rw [decode_frame_pixel _ fb1 y x hy hx, pixel_col_eq]
    congr 1
    unfold specColourIndex
    by_cases hb : s.memory (bitmapAddr y x) &&& (0x80 >>> (x &&& 7)) = 0 <;> simp [hb, hfl]
  · rw [decode_frame_pixel _ fb2 y x hy hx, pixel_col_eq]
    congr 1
    unfold specColourIndex
    by_cases hb : s.memory (bitmapAddr y x) &&& (0x80 >>> (x &&& 7)) = 0 <;> simp [hb]

/-- Witness of C8: the attribute byte of cell (0, 0) is `0x87` (flash set,
ink 7, paper 0) over an all-zero bitmap, pixel `(x, y) = (0, 0)`, previous
buffers filled with 0, 7 and 9: flashed, the paper pixel shows the ink colour
`palette[7]`; not flashed, the paper colour `palette[0]`. -/
theorem C8_flash_swap_witness :
    ((write_byte Machine.start 0x5800 0x87).memory (attrAddr 0 0)).testBit 7 = true ∧
    decode_frame { write_byte Machine.start 0x5800 0x87 with flash_state := true }
        (fun _ => 0) (0 * 256 + 0) =
      decode_frame { write_byte Machine.start 0x5800 0x87 with
        flash_state := false
        memory := Function.update (write_byte Machine.start 0x5800 0x87).memory (attrAddr 0 0)
          (swapInkPaper ((write_byte Machine.start 0x5800 0x87).memory (attrAddr 0 0))) }
        (fun _ => 7) (0 * 256 + 0) ∧
    decode_frame { write_byte Machine.start 0x5800 0x87 with flash_state := true }
        (fun _ => 0) (0 * 256 + 0) = 0xFFD7D7D7 ∧
    decode_frame { write_byte Machine.start 0x5800 0x87 with flash_state := false }
        (fun _ => 7) (0 * 256 + 0) = 0xFF000000 :=
  let h := C8_flash_swap (write_byte Machine.start 0x5800 0x87) (fun _ => 0) (fun _ => 7)
    (fun _ => 9) 0 0 (by decide) (by decide) (by decide)
  ⟨by decide, h.1, h.2.2.1.trans (by decide), h.2.2.2.trans (by decide)⟩

/-! ## Fixed-input rendering -/

/-- C9 (fixed-input rendering): for every 8x8 cell `(cx, cy)`, if the eight
bitmap bytes of the cell are zero and its attribute byte is `0x47`, then for
either flash state `fs`, any border value `bc` and any previous frame buffer,
each of the 64 decoded pixels of the cell equals `palette[0]`.  The index the
decoder resolves is 8 (bit 6 of `0x47` is set), whose palette entry is the
same black as entry 0. -/
theorem C9_zero_bitmap_attr_0x47 (s : Machine) (fb : Nat → Nat) (fs : Bool) (bc cy cx : Nat)
    (hcy : cy < 24) (hcx : cx < 32)
    (hbitmap : ∀ dy, dy < 8 → s.memory (0x4000 + y0 (8 * cy + dy) + cx) = 0)
    (hattr : s.memory (0x5800 + cy * 32 + cx) = 0x47) :
    ∀ dy dx, dy < 8 → dx < 8 →
      palette[0]? =
        some (decode_frame { s with flash_state := fs, border_color := bc } fb
          ((8 * cy + dy) * 256 + (8 * cx + dx))) ∧
      pixel_col { s with flash_state := fs, border_color := bc } (8 * cy + dy) (8 * cx + dx) = 8 := by
  intro dy dx hdy hdx
  have hx3 : (8 * cx + dx) >>> 3 = cx := by
    rw [Nat.shiftRight_eq_div_pow]
    omega
  have hb : bitmapAddr (8 * cy + dy) (8 * cx + dx) = 0x4000 + y0 (8 * cy + dy) + cx := by
    unfold bitmapAddr
    rw [hx3]
  have ha : attrAddr (8 * cy + dy) (8 * cx + dx) = 0x5800 + cy * 32 + cx := by
    unfold attrAddr
    omega
  have hcol : pixel_col { s with flash_state := fs, border_color := bc }
      (8 * cy + dy) (8 * cx + dx) = 8 := by
    rw [pixel_col_eq]
    simp only [hb, ha, hbitmap dy hdy, hattr, Nat.zero_and]
    cases fs <;> decide
  refine ⟨?_, hcol⟩
  rw [decode_frame_pixel _ fb _ _ (by omega) (by omega), hcol]
  rfl

/-- Witness of C9: the machine whose only non-zero byte is the attribute
`0x47` of cell (0, 0), flash state true, border 5, pixel `(dx, dy) = (5, 3)`. -/
theorem C9_zero_bitmap_attr_0x47_witness :
    palette[0]? =
        some (decode_frame
          { write_byte Machine.start 0x5800 0x47 with flash_state := true, border_color := 5 }
          (fun _ => 0) ((8 * 0 + 3) * 256 + (8 * 0 + 5))) ∧
      pixel_col { write_byte Machine.start 0x5800 0x47 with flash_state := true, border_color := 5 }
        (8 * 0 + 3) (8 * 0 + 5) = 8 :=
  C9_zero_bitmap_attr_0x47 (write_byte Machine.start 0x5800 0x47) (fun _ => 0) true 5 0 0
    (by decide) (by decide) (by decide) (by decide) 3 5 (by decide) (by decide)

/-! ## CPU emulation of one frame -/

theorem consumed_start {σ : Type} (core : Z80Core σ) (w : Nat) (cpu : σ) :
    consumed core w (core.cyc cpu) cpu = 0 := by
  unfold consumed
  rw [Nat.add_sub_cancel_left, Nat.mod_self]

/-- Under the progress hypothesis the budget is reached after at most `m`
steps, when `m` bounds the cycles still missing. -/
theorem budget_reached {σ : Type} (core : Z80Core σ) (w start : Nat)
    (hstep : ∀ c, consumed core w start c < CYCLES_PER_FRAME →
      consumed core w start c < consumed core w start (core.z80_step c))
    (m : Nat) : ∀ c, CYCLES_PER_FRAME - consumed core w start c ≤ m →
    ∃ n, n ≤ m ∧ CYCLES_PER_FRAME ≤ consumed core w start (core.z80_step^[n] c) ∧
      ∀ k, k < n → consumed core w start (core.z80_step^[k] c) < CYCLES_PER_FRAME := by
  induction m with
  | zero =>
    intro c hc
    exact ⟨0, le_refl 0, by simpa using Nat.sub_eq_zero_iff_le.mp (Nat.le_zero.mp hc),
      fun k hk => absurd hk (Nat.not_lt_zero k)⟩
  | succ m ih =>
    intro c hc
    by_cases hlt : consumed core w start c < CYCLES_PER_FRAME
    · have hs := hstep c hlt
      obtain ⟨n, hn, hge, hbelow⟩ := ih (core.z80_step c) (by omega)
      refine ⟨n + 1, by omega, ?_, ?_⟩
      · rw [Function.iterate_succ_apply]
        exact hge
      · intro k hk
        cases k with
        | zero => exact hlt
        | succ k =>
          rw [Function.iterate_succ_apply]
          exact hbelow k (by omega)
    · exact ⟨0, Nat.zero_le _, by simpa using not_lt.mp hlt,
        fun k hk => absurd hk (Nat.not_lt_zero k)⟩

/-- The loop of line 180 run with more fuel than the number `n` of steps to
the budget: it performs exactly those `n` steps. -/
theorem whileLoop_steps {σ : Type} (core : Z80Core σ) (w start : Nat) (n : Nat) :
    ∀ (fuel : Nat) (t : σ × List CpuCall), n < fuel →
    (∀ k, k < n → consumed core w start (core.z80_step^[k] t.1) < CYCLES_PER_FRAME) →
    CYCLES_PER_FRAME ≤ consumed core w start (core.z80_step^[n] t.1) →
    whileLoop fuel (fun u => decide (consumed core w start u.1 < CYCLES_PER_FRAME))
      (fun u => (core.z80_step u.1, u.2 ++ [CpuCall.step])) t =
      some (core.z80_step^[n] t.1, t.2 ++ List.replicate n CpuCall.step) := by
  induction n with
  | zero =>
    intro fuel t hf _ hge
    cases fuel with
    | zero => exact absurd hf (Nat.lt_irrefl 0)
    | succ fuel =>
      have hge' : ¬ consumed core w start t.1 < CYCLES_PER_FRAME := not_lt.mpr hge
      simp [whileLoop, hge']
  | succ n ih =>
    intro fuel t hf hbelow hge
    cases fuel with
    | zero => exact absurd hf (Nat.not_lt_zero _)
    | succ fuel =>
      have h0 : consumed core w start t.1 < CYCLES_PER_FRAME := hbelow 0 (Nat.succ_pos n)
      have hrec := ih fuel (core.z80_step t.1, t.2 ++ [CpuCall.step]) (by omega)
        (fun k hk => by
          have := hbelow (k + 1) (by omega)
          rwa [Function.iterate_succ_apply] at this)
        (by rwa [Function.iterate_succ_apply] at hge)
      simp only [whileLoop, h0, decide_True, if_true]
      rw [hrec, Function.iterate_succ_apply, List.replicate_succ, List.append_assoc]
      rfl

/-- C10 (one interrupt per frame): for every CPU core whose step strictly
increases the cycle count of the frame (the `unsigned long` difference
`cpu.cyc - start`, `w` bits wide, as long as it is below the budget), the
Executing phase terminates with any fuel above 70000: it performs `n ≥ 1`
steps, where `n` is the first number of steps after which the consumed count
reaches `CYCLES_PER_FRAME = 3500000/50 = 70000` (after every smaller number of
steps, the last step's predecessor included, it is below 70000), and then
makes exactly one `z80_gen_int` call, the last call of the frame. -/
theorem C10_one_interrupt_per_frame {σ : Type} (core : Z80Core σ) (w : Nat) (cpu0 : σ)
    (log0 : List CpuCall)
    (hstep : ∀ c, consumed core w (core.cyc cpu0) c < CYCLES_PER_FRAME →
      consumed core w (core.cyc cpu0) c < consumed core w (core.cyc cpu0) (core.z80_step c)) :
    CYCLES_PER_FRAME = 70000 ∧
    ∃ n, 0 < n ∧ n ≤ 70000 ∧
      (∀ fuel, 70000 < fuel →
        executing core w fuel (cpu0, log0) =
          some (core.z80_gen_int (core.z80_step^[n] cpu0) 0,
            log0 ++ List.replicate n CpuCall.step ++ [CpuCall.gen_int 0])) ∧
      (log0 ++ List.replicate n CpuCall.step ++ [CpuCall.gen_int 0]).count (CpuCall.gen_int 0) =
        log0.count (CpuCall.gen_int 0) + 1 ∧
      CYCLES_PER_FRAME ≤ consumed core w (core.cyc cpu0) (core.z80_step^[n] cpu0) ∧
      ∀ k, k < n → consumed core w (core.cyc cpu0) (core.z80_step^[k] cpu0) < CYCLES_PER_FRAME := by
  refine ⟨rfl, ?_⟩
  obtain ⟨n, hn, hge, hbelow⟩ :=
    budget_reached core w (core.cyc cpu0) hstep 70000 cpu0 (Nat.sub_le _ _)
  have hpos : 0 < n := by
    rcases Nat.eq_zero_or_pos n with h0 | h0
    · subst h0
      rw [Function.iterate_zero_apply, consumed_start] at hge
      exact absurd hge (by decide)
    · exact h0
  refine ⟨n, hpos, hn, ?_, ?_, hge, hbelow⟩
  · intro fuel hfuel
    have hloop := whileLoop_steps core w (core.cyc cpu0) n fuel (cpu0, log0) (by omega)
      hbelow hge
    unfold executing
    simp only [hloop]
  · rw [List.count_append, List.count_append, List.count_replicate]
    simp

/-- Witness of C10: the sample core (4 cycles per instruction, 64-bit counter)
started at cycle count 0 with an empty call log. -/
theorem C10_one_interrupt_per_frame_witness :
    (∀ c, consumed sampleCore 64 (sampleCore.cyc 0) c < CYCLES_PER_FRAME →
      consumed sampleCore 64 (sampleCore.cyc 0) c <
        consumed sampleCore 64 (sampleCore.cyc 0) (sampleCore.z80_step c)) ∧
    (CYCLES_PER_FRAME = 70000 ∧
    ∃ n, 0 < n ∧ n ≤ 70000 ∧
      (∀ fuel, 70000 < fuel →
        executing sampleCore 64 fuel (0, []) =
          some (sampleCore.z80_gen_int (sampleCore.z80_step^[n] 0) 0,
            [] ++ List.replicate n CpuCall.step ++ [CpuCall.gen_int 0])) ∧
      ([] ++ List.replicate n CpuCall.step ++ [CpuCall.gen_int 0]).count (CpuCall.gen_int 0) =
        List.count (CpuCall.gen_int 0) [] + 1 ∧
      CYCLES_PER_FRAME ≤ consumed sampleCore 64 (sampleCore.cyc 0) (sampleCore.z80_step^[n] 0) ∧
      ∀ k, k < n →
        consumed sampleCore 64 (sampleCore.cyc 0) (sampleCore.z80_step^[k] 0) < CYCLES_PER_FRAME) :=
  have hstep : ∀ c, consumed sampleCore 64 (sampleCore.cyc 0) c < CYCLES_PER_FRAME →
      consumed sampleCore 64 (sampleCore.cyc 0) c <
        consumed sampleCore 64 (sampleCore.cyc 0) (sampleCore.z80_step c) := by
    intro c
    show (c % 2 ^ 64 + 2 ^ 64 - 0 % 2 ^ 64) % 2 ^ 64 < 3500000 / 50 →
      (c % 2 ^ 64 + 2 ^ 64 - 0 % 2 ^ 64) % 2 ^ 64 < ((c + 4) % 2 ^ 64 + 2 ^ 64 - 0 % 2 ^ 64) % 2 ^ 64
    norm_num
    omega
  ⟨hstep, C10_one_interrupt_per_frame sampleCore 64 0 [] hstep⟩


/-! ## Attribute field extraction -/

/-- The palette index of `pixel_col` written with the named attribute fields. -/
theorem pixel_col_fields (s : Machine) (y x : Nat) :
    pixel_col s y x =
      ((if (s.memory (bitmapAddr y x) &&& (0x80 >>> (x &&& 7))) % 256 ≠ 0
        then (if attr_fl (s.memory (attrAddr y x)) && s.flash_state
          then (attr_pap (s.memory (attrAddr y x)), attr_ink (s.memory (attrAddr y x)))
          else (attr_ink (s.memory (attrAddr y x)), attr_pap (s.memory (attrAddr y x)))).1
        else (if attr_fl (s.memory (attrAddr y x)) && s.flash_state
          then (attr_pap (s.memory (attrAddr y x)), attr_ink (s.memory (attrAddr y x)))
          else (attr_ink (s.memory (attrAddr y x)), attr_pap (s.memory (attrAddr y x)))).2) +
        (if attr_br (s.memory (attrAddr y x)) then 8 else 0)) % 256 :=
  rfl

/-- C20 (counterexample to the statement as written): the decoder's bright flag of the attribute
byte `0x47` is set (bit 6 of `0x47 = 0b01000111` is 1), so the fields are not
ink 7, paper 0, bright 0, flash 0. -/
theorem C20_attr_0x47_counterexample :
    ¬ (attr_ink 0x47 = 7 ∧ attr_pap 0x47 = 0 ∧ attr_br 0x47 = false ∧ attr_fl 0x47 = false) := by
  decide

/-- C20 (amended): the decoder's field extraction applied to the attribute
byte `0x47` yields ink = 7, paper = 0, bright = 1 (bright) and flash = 0 (not
flashing); the byte with the same ink and paper and bright = 0 is `0x07`. -/
theorem C20_attr_0x47_fields :
    attr_ink 0x47 = 7 ∧ attr_pap 0x47 = 0 ∧ attr_br 0x47 = true ∧ attr_fl 0x47 = false ∧
    (attr_ink 0x07 = 7 ∧ attr_pap 0x07 = 0 ∧ attr_br 0x07 = false ∧ attr_fl 0x07 = false) := by
  decide

/-! ## Key mapping -/

theorem testBit_byte_high (a j : Nat) (ha : a < 256) (hj : 8 ≤ j) : a.testBit j = false :=
  Nat.testBit_lt_two_pow (lt_of_lt_of_le ha (Nat.pow_le_pow_right (by decide) hj : 2 ^ 8 ≤ 2 ^ j))

theorem testBit_one_shiftLeft (b j : Nat) : (1 <<< b).testBit j = decide (b = j) := by
  rw [Nat.one_shiftLeft, Nat.testBit_two_pow]

/-- The bits of a byte row after `key_matrix[row] &= ~(1 << bit)`. -/
theorem pressed_row_testBit (a b j : Nat) (ha : a < 256) :
    ((a &&& bitNot32 (1 <<< b)) % 256).testBit j = (a.testBit j && !decide (b = j)) := by
  rw [testBit_mod_256, Nat.testBit_and, testBit_bitNot32, testBit_one_shiftLeft]
  by_cases hj : j < 8
  · have h32 : j < 32 := by omega
    simp [hj, h32]
  · rw [testBit_byte_high a j ha (not_lt.mp hj)]
    simp

/-- The bits of a byte row after `key_matrix[row] |= (1 << bit)`, for `bit < 8`. -/
theorem released_row_testBit (a b j : Nat) (ha : a < 256) (hb : b < 8) :
    ((a ||| (1 <<< b)) % 256).testBit j = (a.testBit j || decide (b = j)) := by
  rw [testBit_mod_256, Nat.testBit_or, testBit_one_shiftLeft]
  by_cases hj : j < 8
  · simp [hj]
  · rw [testBit_byte_high a j ha (not_lt.mp hj)]
    have hbj : ¬ b = j := by omega
    simp [hj, hbj]

theorem update_key_testBit (s : Machine) (r b : Nat) (pressed : Bool)
    (hkm : ∀ i, s.key_matrix i < 256) (hb : b < 8) (i j : Nat) :
    ((update_key s r b pressed).key_matrix i).testBit j =
      if i = r ∧ j = b then !pressed else (s.key_matrix i).testBit j := by
  cases pressed
  · rw [update_key_released]
    simp only
    by_cases hi : i = r
    · subst hi
      rw [Function.update_same, released_row_testBit _ b j (hkm i) hb]
      by_cases hj : j = b
      · subst hj
        simp
      · have hj' : ¬ b = j := fun h => hj h.symm
        simp [hj, hj']
    · rw [Function.update_noteq hi]
      simp [hi]
  · rw [update_key_pressed]
    simp only
    by_cases hi : i = r
    · subst hi
      rw [Function.update_same, pressed_row_testBit _ b j (hkm i)]
      by_cases hj : j = b
      · subst hj
        simp
      · have hj' : ¬ b = j := fun h => hj h.symm
        simp [hj, hj']
    · rw [Function.update_noteq hi]
      simp [hi]

theorem update_key_other_fields (s : Machine) (r b : Nat) (pressed : Bool) :
    (update_key s r b pressed).memory = s.memory ∧
    (update_key s r b pressed).border_color = s.border_color ∧
    (update_key s r b pressed).flash_counter = s.flash_counter ∧
    (update_key s r b pressed).flash_state = s.flash_state := by
  cases pressed <;> simp [update_key]

theorem handle_sdl_key_other_fields (s : Machine) (sc : SDL_Scancode) (pressed : Bool) :
    (handle_sdl_key s sc pressed).memory = s.memory ∧
    (handle_sdl_key s sc pressed).border_color = s.border_color ∧
    (handle_sdl_key s sc pressed).flash_counter = s.flash_counter ∧
    (handle_sdl_key s sc pressed).flash_state = s.flash_state := by
  rw [handle_sdl_key_eq]
  cases h : keyCoord sc with
  | none => exact ⟨rfl, rfl, rfl, rfl⟩
  | some rb => exact update_key_other_fields s rb.1 rb.2 pressed

/-- C11 (key mapping): for every machine state whose matrix rows are bytes,
every host scancode and every pressed flag, `handle_sdl_key` returns the state
unchanged when the scancode has no mapping entry, and otherwise is the call
`update_key` at the mapped coordinate `(r, b)` with `r < 8` and `b < 5`, after
which bit `b` of row `r` is 0 when pressed and 1 when released and every other
bit of every row is as before; memory, border and flash variables are
unchanged. -/
theorem C11_key_mapping (s : Machine) (sc : SDL_Scancode) (pressed : Bool)
    (hkm : ∀ i, s.key_matrix i < 256) :
    (keyCoord sc = none ∨ ∃ r b, keyCoord sc = some (r, b)) ∧
    (keyCoord sc = none → handle_sdl_key s sc pressed = s) ∧
    (∀ r b, keyCoord sc = some (r, b) →
      r < 8 ∧ b < 5 ∧ handle_sdl_key s sc pressed = update_key s r b pressed ∧
      ∀ i j, ((handle_sdl_key s sc pressed).key_matrix i).testBit j =
        if i = r ∧ j = b then !pressed else (s.key_matrix i).testBit j) ∧
    ((handle_sdl_key s sc pressed).memory = s.memory ∧
     (handle_sdl_key s sc pressed).border_color = s.border_color ∧
     (handle_sdl_key s sc pressed).flash_counter = s.flash_counter ∧
     (handle_sdl_key s sc pressed).flash_state = s.flash_state) := by
  refine ⟨?_, ?_, ?_, handle_sdl_key_other_fields s sc pressed⟩
  · cases h : keyCoord sc with
    | none => exact Or.inl rfl
    | some rb => exact Or.inr ⟨rb.1, rb.2, rfl⟩
  · intro h
    rw [handle_sdl_key_eq, h]
  · intro r b h
    obtain ⟨hr, hb⟩ := keyCoord_range sc r b h
    have heq : handle_sdl_key s sc pressed = update_key s r b pressed := by
      rw [handle_sdl_key_eq, h]
    refine ⟨hr, hb, heq, fun i j => ?_⟩
    rw [heq]
    exact update_key_testBit s r b pressed hkm (by omega) i j

/-- Witness of C11: the key `SDL_SCANCODE_A` pressed on the zero-initialised
machine. -/
theorem C11_key_mapping_witness :
    (∀ i, Machine.start.key_matrix i < 256) ∧
    (keyCoord SDL_Scancode.SDL_SCANCODE_A = some (1, 0) →
      1 < 8 ∧ 0 < 5 ∧
      handle_sdl_key Machine.start SDL_Scancode.SDL_SCANCODE_A true =
        update_key Machine.start 1 0 true ∧
      ∀ i j, ((handle_sdl_key Machine.start SDL_Scancode.SDL_SCANCODE_A true).key_matrix i).testBit j =
        if i = 1 ∧ j = 0 then !true else (Machine.start.key_matrix i).testBit j) :=
  ⟨fun _ => (by decide : (0 : Nat) < 256),
    (C11_key_mapping Machine.start SDL_Scancode.SDL_SCANCODE_A true
      (fun _ => (by decide : (0 : Nat) < 256))).2.2.1 1 0⟩

theorem symbol_shift_keys (k : SDL_Scancode)
    (hk : k ∈ [SDL_Scancode.SDL_SCANCODE_RSHIFT, SDL_Scancode.SDL_SCANCODE_LCTRL,
      SDL_Scancode.SDL_SCANCODE_RCTRL]) : keyCoord k = some (7, 1) := by
  simp only [List.mem_cons, List.mem_singleton, List.not_mem_nil, or_false] at hk
  rcases hk with h | h | h <;> subst h <;> rfl

theorem released_bit_set (s : Machine) (r b : Nat) (hb : b < 8) :
    ((update_key s r b false).key_matrix r).testBit b = true := by
  rw [update_key_released]
  simp only
  rw [Function.update_same, testBit_mod_256, Nat.testBit_or, testBit_one_shiftLeft]
  simp [hb]

/-- C18 (Symbol Shift aliasing): `RSHIFT`, `LCTRL` and `RCTRL` all map to the
matrix coordinate (7, 1); for any two keys `k1`, `k2` among them (distinct
ones in particular) and any machine state, after press `k1`, press `k2` bit 1
of row 7 is 0, and after the following release of `k1` (with `k2` still held)
it is 1: the matrix reports Symbol Shift as released. -/
theorem C18_symbol_shift_aliasing (s : Machine) (k1 k2 : SDL_Scancode)
    (h1 : k1 ∈ [SDL_Scancode.SDL_SCANCODE_RSHIFT, SDL_Scancode.SDL_SCANCODE_LCTRL,
      SDL_Scancode.SDL_SCANCODE_RCTRL])
    (h2 : k2 ∈ [SDL_Scancode.SDL_SCANCODE_RSHIFT, SDL_Scancode.SDL_SCANCODE_LCTRL,
      SDL_Scancode.SDL_SCANCODE_RCTRL]) :
    (keyCoord SDL_Scancode.SDL_SCANCODE_RSHIFT = some (7, 1) ∧
     keyCoord SDL_Scancode.SDL_SCANCODE_LCTRL = some (7, 1) ∧
     keyCoord SDL_Scancode.SDL_SCANCODE_RCTRL = some (7, 1)) ∧
    (∀ t pr, handle_sdl_key t k1 pr = update_key t 7 1 pr) ∧
    (∀ t pr, handle_sdl_key t k2 pr = update_key t 7 1 pr) ∧
    ((handle_sdl_key (handle_sdl_key s k1 true) k2 true).key_matrix 7).testBit 1 = false ∧
    ((handle_sdl_key (handle_sdl_key (handle_sdl_key s k1 true) k2 true) k1 false).key_matrix
      7).testBit 1 = true := by
  have e1 : ∀ t pr, handle_sdl_key t k1 pr = update_key t 7 1 pr := by
    intro t pr
    rw [handle_sdl_key_eq, symbol_shift_keys k1 h1]
  have e2 : ∀ t pr, handle_sdl_key t k2 pr = update_key t 7 1 pr := by
    intro t pr
    rw [handle_sdl_key_eq, symbol_shift_keys k2 h2]
  refine ⟨⟨rfl, rfl, rfl⟩, e1, e2, ?_, ?_⟩
  · rw [e2, update_key_pressed]
    simp only
    rw [Function.update_same, testBit_mod_256, Nat.testBit_and, testBit_bitNot32,
      testBit_one_shiftLeft]
    simp
  · rw [e1 _ false]
    exact released_bit_set _ 7 1 (by decide)

/-- Witness of C18: `k1 = RSHIFT`, `k2 = LCTRL`, from the initial keyboard. -/
theorem C18_symbol_shift_aliasing_witness :
    SDL_Scancode.SDL_SCANCODE_RSHIFT ≠ SDL_Scancode.SDL_SCANCODE_LCTRL ∧
    ((handle_sdl_key (handle_sdl_key (handle_sdl_key (init_keyboard Machine.start)
      SDL_Scancode.SDL_SCANCODE_RSHIFT true) SDL_Scancode.SDL_SCANCODE_LCTRL true)
      SDL_Scancode.SDL_SCANCODE_RSHIFT false).key_matrix 7).testBit 1 = true :=
  ⟨by decide,
    (C18_symbol_shift_aliasing (init_keyboard Machine.start) SDL_Scancode.SDL_SCANCODE_RSHIFT
      SDL_Scancode.SDL_SCANCODE_LCTRL (by decide) (by decide)).2.2.2.2⟩


/-! ## ROM loading -/

theorem load_rom_enough (s : Machine) (bytes : List (Fin 256)) (h : ROM_SIZE ≤ bytes.length) :
    load_rom (some bytes) s =
      Except.ok { s with
        memory := memset (fun a => if a < ROM_SIZE then ((bytes.getD a 0 : Fin 256) : Nat)
          else s.memory a) ROM_SIZE 0 (65536 - ROM_SIZE) } := by
  have hmin : min ROM_SIZE bytes.length = ROM_SIZE := Nat.min_eq_left h
  simp only [load_rom, fread]
  rw [if_neg (fun hne => hne hmin), hmin]

/-- C12 (ROM load, success): for every machine state and every ROM file of
exactly `0x4000` bytes, `load_rom` returns normally with a machine whose
memory holds `file[a]` at every `a < 0x4000` and 0 at every `a` with
`0x4000 ≤ a < 0x10000`; the other statics are unchanged. -/
theorem C12_load_rom_success (s : Machine) (bytes : List (Fin 256))
    (hlen : bytes.length = 0x4000) :
    ∃ s1, load_rom (some bytes) s = Except.ok s1 ∧
      (∀ a, a < 0x4000 → (bytes[a]?).map Fin.val = some (s1.memory a)) ∧
      (∀ a, 0x4000 ≤ a → a < 0x10000 → s1.memory a = 0) ∧
      s1.border_color = s.border_color ∧ s1.key_matrix = s.key_matrix ∧
      s1.flash_counter = s.flash_counter ∧ s1.flash_state = s.flash_state := by
  have hR : ROM_SIZE = 0x4000 := rfl
  refine ⟨_, load_rom_enough s bytes (by rw [hR]; omega), ?_, ?_, rfl, rfl, rfl, rfl⟩
  · intro a ha
    have hlt : a < bytes.length := by omega
    have hn : ¬ (ROM_SIZE ≤ a ∧ a < ROM_SIZE + (65536 - ROM_SIZE)) := by
      rw [hR]
      omega
    simp only [memset]
    rw [if_neg hn, if_pos (by rw [hR]; exact ha), List.getElem?_eq_getElem hlt,
      List.getD_eq_getElem bytes 0 hlt]
    rfl
  · intro a h1 h2
    have hy : ROM_SIZE ≤ a ∧ a < ROM_SIZE + (65536 - ROM_SIZE) := by
      rw [hR]
      omega
    simp only [memset]
    rw [if_pos hy]

/-- Witness of C12: the 16384-byte file `sampleRom` loaded into the
zero-initialised machine. -/
theorem C12_load_rom_success_witness :
    sampleRom.length = 0x4000 ∧
    ∃ s1, load_rom (some sampleRom) Machine.start = Except.ok s1 ∧
      (∀ a, a < 0x4000 → (sampleRom[a]?).map Fin.val = some (s1.memory a)) ∧
      (∀ a, 0x4000 ≤ a → a < 0x10000 → s1.memory a = 0) ∧
      s1.border_color = Machine.start.border_color ∧
      s1.key_matrix = Machine.start.key_matrix ∧
      s1.flash_counter = Machine.start.flash_counter ∧
      s1.flash_state = Machine.start.flash_state :=
  ⟨List.length_replicate _ _,
    C12_load_rom_success Machine.start sampleRom (List.length_replicate _ _)⟩

set_option maxRecDepth 100000 in
theorem y0_inv_y0 : ∀ y, y < 192 → y0_inv (y0 y) = y ∧ y0 y % 32 = 0 := by
  decide

set_option maxRecDepth 100000 in
theorem y0_y0_inv : ∀ k, k < 192 → y0_inv (32 * k) < 192 ∧ y0 (y0_inv (32 * k)) = 32 * k := by
  decide

theorem bitmap_addr_injective (y c y1 c1 : Nat) (hy : y < 192) (hc : c < 32)
    (hy1 : y1 < 192) (hc1 : c1 < 32) (h : 0x4000 + y0 y + c = 0x4000 + y0 y1 + c1) :
    y = y1 ∧ c = c1 := by
  obtain ⟨hi, hm⟩ := y0_inv_y0 y hy
  obtain ⟨hi1, hm1⟩ := y0_inv_y0 y1 hy1
  have e : y0 y = y0 y1 := by omega
  refine ⟨?_, by omega⟩
  rw [← hi, ← hi1, e]

theorem bitmap_addr_surjective (a : Nat) (h1 : 0x4000 ≤ a) (h2 : a < 0x5800) :
    ∃ y c, y < 192 ∧ c < 32 ∧ 0x4000 + y0 y + c = a := by
  obtain ⟨hlt, he⟩ := y0_y0_inv ((a - 0x4000) / 32) (by omega)
  refine ⟨y0_inv (32 * ((a - 0x4000) / 32)), (a - 0x4000) % 32, hlt, Nat.mod_lt _ (by decide), ?_⟩
  rw [he]
  omega

theorem attrAddr_range (y x : Nat) (hy : y < 192) (hx : x < 256) :
    0x5800 ≤ attrAddr y x ∧ attrAddr y x < 0x5B00 := by
  unfold attrAddr
  omega

theorem bitmapAddr_range (y x : Nat) (hy : y < 192) (hx : x < 256) :
    0x4000 ≤ bitmapAddr y x ∧ bitmapAddr y x < 0x5800 := by
  have h := y0_lt y hy
  have hx3 : x >>> 3 < 32 := by
    rw [Nat.shiftRight_eq_div_pow]
    omega
  unfold bitmapAddr
  omega

/-- C17 (interleaved addressing is a bijection): the map
`(y, c) -> 0x4000 + ((y & 0xC0) << 5 | (y & 0x07) << 8 | (y & 0x38) << 2) + c`
on `y < 192`, `c < 32` is injective, maps into `[0x4000, 0x5800)` and reaches
every address of that range (each exactly once); the attribute address lies in
`[0x5800, 0x5B00)`; so both reads of the decoder are at or above `ROM_SIZE` and
below `0x10000`, and every bitmap byte is read for exactly one row `y` and byte
column `x / 8`. -/
theorem C17_interleaved_addressing_bijection :
    (∀ y c y1 c1, y < 192 → c < 32 → y1 < 192 → c1 < 32 →
      0x4000 + y0 y + c = 0x4000 + y0 y1 + c1 → y = y1 ∧ c = c1) ∧
    (∀ y c, y < 192 → c < 32 → 0x4000 ≤ 0x4000 + y0 y + c ∧ 0x4000 + y0 y + c < 0x5800) ∧
    (∀ a, 0x4000 ≤ a → a < 0x5800 →
      ∃! p : Nat × Nat, p.1 < 192 ∧ p.2 < 32 ∧ 0x4000 + y0 p.1 + p.2 = a) ∧
    (∀ y x, y < 192 → x < 256 → 0x5800 ≤ attrAddr y x ∧ attrAddr y x < 0x5B00) ∧
    (∀ y x, y < 192 → x < 256 →
      (ROM_SIZE ≤ bitmapAddr y x ∧ bitmapAddr y x < 0x10000) ∧
      (ROM_SIZE ≤ attrAddr y x ∧ attrAddr y x < 0x10000)) ∧
    (∀ y x y1 x1, y < 192 → x < 256 → y1 < 192 → x1 < 256 →
      bitmapAddr y x = bitmapAddr y1 x1 → y = y1 ∧ x / 8 = x1 / 8) := by
  have hR : ROM_SIZE = 0x4000 := rfl
  refine ⟨bitmap_addr_injective, ?_, ?_, attrAddr_range, ?_, ?_⟩
  · intro y c hy hc
    have h := y0_lt y hy
    omega
  · intro a h1 h2
    obtain ⟨y, c, hy, hc, he⟩ := bitmap_addr_surjective a h1 h2
    refine ⟨(y, c), ⟨hy, hc, he⟩, ?_⟩
    rintro ⟨y1, c1⟩ ⟨hy1, hc1, he1⟩
    obtain ⟨e1, e2⟩ := bitmap_addr_injective y1 c1 y c hy1 hc1 hy hc (he1.trans he.symm)
    rw [e1, e2]
  · intro y x hy hx
    have hb := bitmapAddr_range y x hy hx
    have ha := attrAddr_range y x hy hx
    rw [hR]
    omega
  · intro y x y1 x1 hy hx hy1 hx1 h
    have e : ∀ u : Nat, u >>> 3 = u / 8 := fun u => Nat.shiftRight_eq_div_pow u 3
    unfold bitmapAddr at h
    rw [e, e] at h
    exact bitmap_addr_injective y (x / 8) y1 (x1 / 8) hy (by omega) hy1 (by omega) h


/-! ## The decoded frame as a function of video memory and flash state -/

theorem draw_border_get (s : Machine) (fb : Nat → Nat) (i : Nat) :
    draw_border s fb i =
      if i < SCREEN_W * SCREEN_H then palette.getD s.border_color 0 else fb i := by
  show forLoop (SCREEN_W * SCREEN_H)
    (fun i fb1 => Function.update fb1 i (palette.getD s.border_color 0)) fb i = _
  generalize SCREEN_W * SCREEN_H = n
  induction n with
  | zero => rw [forLoop_zero, if_neg (Nat.not_lt_zero i)]
  | succ n ih =>
    rw [forLoop_succ]
    by_cases hi : i = n
    · subst hi
      rw [Function.update_same, if_pos (Nat.lt_succ_self i)]
    · rw [Function.update_noteq hi, ih]
      by_cases h : i < n
      · rw [if_pos h, if_pos (by omega)]
      · rw [if_neg h, if_neg (by omega)]

/-- Every entry of the frame buffer after the decoding step: the decoded pixel
inside the screen, the previous contents beyond it. -/
theorem decode_frame_get (s : Machine) (fb : Nat → Nat) (i : Nat) :
    decode_frame s fb i =
      if i < SCREEN_W * SCREEN_H
      then palette.getD (pixel_col s (i / SCREEN_W) (i % SCREEN_W)) 0 else fb i := by
  unfold decode_frame draw_screen
  rw [draw_rows_get, draw_border_get]
  have e : SCREEN_H * SCREEN_W = SCREEN_W * SCREEN_H := Nat.mul_comm _ _
  rw [e]
  by_cases h : i < SCREEN_W * SCREEN_H
  · rw [if_pos h, if_pos h]
  · rw [if_neg h, if_neg h, if_neg h]

/-- The palette index of a pixel depends on the machine only through the
video memory `[0x4000, 0x5B00)` and the flash state. -/
theorem pixel_col_congr (s1 s2 : Machine) (y x : Nat) (hy : y < 192) (hx : x < 256)
    (hmem : ∀ a, 0x4000 ≤ a → a < 0x5B00 → s1.memory a = s2.memory a)
    (hflash : s1.flash_state = s2.flash_state) :
    pixel_col s1 y x = pixel_col s2 y x := by
  have hb := bitmapAddr_range y x hy hx
  have ha := attrAddr_range y x hy hx
  rw [pixel_col_eq, pixel_col_eq, hmem _ hb.1 (by omega), hmem _ (by omega) ha.2, hflash]

theorem decode_frame_congr (s1 s2 : Machine) (fb1 fb2 : Nat → Nat)
    (hmem : ∀ a, 0x4000 ≤ a → a < 0x5B00 → s1.memory a = s2.memory a)
    (hflash : s1.flash_state = s2.flash_state) (i : Nat) (hi : i < SCREEN_W * SCREEN_H) :
    decode_frame s1 fb1 i = decode_frame s2 fb2 i := by
  rw [decode_frame_get, decode_frame_get, if_pos hi, if_pos hi]
  have hW : SCREEN_W = 256 := rfl
  have hH : SCREEN_H = 192 := rfl
  rw [hW, hH] at hi
  rw [hW, pixel_col_congr s1 s2 (i / 256) (i % 256) (by omega) (Nat.mod_lt _ (by decide))
    hmem hflash]

/-- C16 (border independence of the frame): for every machine state, previous
frame buffer and any two border latch values, the decoded frame buffers are
identical: the border fill writes the border colour to each of the 256x192
entries, and the bitmap and attribute loops overwrite every one of them with
the decoded pixel. -/
theorem C16_border_independence (s : Machine) (fb : Nat → Nat) (b1 b2 : Nat) :
    decode_frame { s with border_color := b1 } fb = decode_frame { s with border_color := b2 } fb ∧
    (∀ i, i < 256 * 192 →
      draw_border { s with border_color := b1 } fb i = palette.getD b1 0 ∧
      decode_frame { s with border_color := b1 } fb i =
        palette.getD (pixel_col s (i / 256) (i % 256)) 0) := by
  have hn : SCREEN_W * SCREEN_H = 256 * 192 := rfl
  constructor
  · funext i
    rw [decode_frame_get, decode_frame_get]
    rfl
  · intro i hi
    constructor
    · rw [draw_border_get, if_pos (by rw [hn]; exact hi)]
    · rw [decode_frame_get, if_pos (by rw [hn]; exact hi)]
      rfl

/-- C14 (decoder purity): the Decoding phase leaves the machine (memory,
border latch, flash variables, keyboard matrix), the CPU and the `running`
flag unchanged and only replaces the frame buffer by the decoded frame; each of
its 256x192 pixels is the same for any machine `s2` with the same video memory
`[0x4000, 0x5B00)` and flash state (hence for the same video memory, border and
flash state) and any previous buffer `fb2`, and decoding a second time gives
the same buffer again. -/
theorem C14_decoder_purity {Z : Type} (st : LoopState Z) (s2 : Machine) (fb2 : Nat → Nat)
    (hmem : ∀ a, 0x4000 ≤ a → a < 0x5B00 → st.machine.memory a = s2.memory a)
    (hflash : st.machine.flash_state = s2.flash_state) :
    ((decoding st).machine = st.machine ∧ (decoding st).cpu = st.cpu ∧
      (decoding st).running = st.running) ∧
    (decoding st).framebuf = decode_frame st.machine st.framebuf ∧
    (∀ i, i < 256 * 192 → (decoding st).framebuf i = decode_frame s2 fb2 i) ∧
    (decoding (decoding st)).framebuf = (decoding st).framebuf := by
  refine ⟨⟨rfl, rfl, rfl⟩, rfl, ?_, ?_⟩
  · intro i hi
    exact decode_frame_congr st.machine s2 st.framebuf fb2 hmem hflash i hi
  · show decode_frame st.machine (decode_frame st.machine st.framebuf) =
      decode_frame st.machine st.framebuf
    funext i
    rw [decode_frame_get, decode_frame_get st.machine st.framebuf]
    by_cases h : i < SCREEN_W * SCREEN_H
    · rw [if_pos h, if_pos h]
    · rw [if_neg h, if_neg h]

/-- Witness of C14: the loop state entered with the zero-initialised machine
and an all-zero buffer, against the same machine with border 3 and a buffer
filled with 7. -/
theorem C14_decoder_purity_witness :
    (decoding (LoopState.enter Machine.start (0 : Nat) (fun _ => 0))).machine = Machine.start ∧
    (∀ i, i < 256 * 192 →
      (decoding (LoopState.enter Machine.start (0 : Nat) (fun _ => 0))).framebuf i =
        decode_frame { Machine.start with border_color := 3 } (fun _ => 7) i) :=
  let h := C14_decoder_purity (LoopState.enter Machine.start (0 : Nat) (fun _ => 0))
    { Machine.start with border_color := 3 } (fun _ => 7) (fun _ _ _ => rfl) rfl
  ⟨h.1.1, h.2.2.1⟩

/-! ## The frame loop: what each phase leaves unchanged -/

end ZXCSpectrum
